import Mathlib

/-!
# diva: dependency-closure resolver and manifest content fetcher

A shallow embedding of

* `rpmdata/rpmdata.go` (`AddRPM`, `RecursiveRequires`, `RecursiveProvides`),
* the resolver loop of `cmd/rpm_deps.go` (`runCheckDependencies`),
* `pkginfo/load_redis.go` (`getRPMRedis`),
* `download/download_manifests.go` (`getAllManifestFiles`, `UpdateFiles`),

followed by the properties established for them.

Conventions of the embedding

* A Go `map[string]T` is a `GoMap T`: its entries, no key twice.  `range` over a
  map visits the entries in the order of the list (Go leaves the order open;
  nothing proved below depends on it unless the statement says so).
* A Go pointer that may be nil is an `Option`; reading a field through a nil
  pointer is the fault `Fault.nilDereference`.
* The recursive walks carry a fuel argument; `none` means the fuel ran out.
-/

namespace Diva

/-! ## Go maps -/

/-- The statement `m[k] = v` on the entries of a map: the entry of `k` is
replaced where it stands, a new key is added at the end. -/
def setEntry {α : Type} (k : String) (v : α) : List (String × α) → List (String × α)
  | [] => [(k, v)]
  | e :: rest => if e.1 = k then (k, v) :: rest else e :: setEntry k v rest

/-- A Go `map[string]α`. -/
structure GoMap (α : Type) where
  entries : List (String × α)
  nodup : (entries.map Prod.fst).Nodup

namespace GoMap

variable {α : Type}

/-- The keys of the map, in the order `range` visits them. -/
def keys (m : GoMap α) : List String := m.entries.map Prod.fst

/-- The literal `map[string]α{}` and `make(map[string]α)`. -/
def empty : GoMap α := ⟨[], List.nodup_nil⟩

/-- The two-valued read `v, ok := m[k]`. -/
def get? (m : GoMap α) (k : String) : Option α :=
  (m.entries.find? (fun e => e.1 = k)).map Prod.snd

/-- The test `_, ok := m[k]`. -/
def contains (m : GoMap α) (k : String) : Bool :=
  m.entries.any (fun e => e.1 = k)

/-- The statement `m[k] = v`. -/
def set (m : GoMap α) (k : String) (v : α) : GoMap α :=
  ⟨setEntry k v m.entries, by
    have key : ∀ l : List (String × α), (l.map Prod.fst).Nodup →
        ((setEntry k v l).map Prod.fst).Nodup ∧
          ∀ x, x ∈ (setEntry k v l).map Prod.fst → x = k ∨ x ∈ l.map Prod.fst := by
      intro l
      induction l with
      | nil => intro _; simp [setEntry]
      | cons e rest ih =>
        intro h
        rw [List.map_cons, List.nodup_cons] at h
        by_cases hk : e.1 = k
        · subst hk
          simp only [setEntry, if_true, List.map_cons, List.nodup_cons, List.mem_cons]
          exact ⟨⟨h.1, h.2⟩, fun x hx => hx.elim Or.inl (fun h' => Or.inr (Or.inr h'))⟩
        · simp only [setEntry, if_neg hk, List.map_cons, List.nodup_cons, List.mem_cons]
          obtain ⟨ih1, ih2⟩ := ih h.2
          refine ⟨⟨fun hmem => ?_, ih1⟩, fun x hx => ?_⟩
          · rcases ih2 _ hmem with h' | h'
            · exact hk h'
            · exact h.1 h'
          · rcases hx with hx | hx
            · exact Or.inr (Or.inl hx)
            · rcases ih2 x hx with h' | h'
              · exact Or.inl h'
              · exact Or.inr (Or.inr h')
    exact (key m.entries m.nodup).1⟩

end GoMap

/-! ## Packages and the package store -/

/-- The `pkginfo.RPM` record, with the fields `getRPMRedis` fills (the file
list, which no function below reads, is left out). -/
structure RPM where
  Name : String
  Version : String
  Release : String
  Architecture : String
  SRPMName : String
  License : String
  Requires : List String
  BuildRequires : List String
  Provides : List String
  deriving DecidableEq

/-- The `pkginfo.Repo` record as far as `getRPMRedis` reads it: the three
strings that make up the key prefix (`Type_` is the Go field `Type`). -/
structure Repo where
  Name : String
  Version : String
  Type_ : String
  deriving DecidableEq

/-- The contents of the redis server: the complete package records, each under
its hash key.  A hash that lacks one of the fields makes `getRPMRedis` fail
like an absent hash does, so only complete records are kept. -/
abbrev Redis := List (String × RPM)

/-- The key `fmt.Sprintf("%s%s%s:%s", repo.Name, repo.Version, repo.Type, rpmName)`
of `getRPMRedis`. -/
def pkgKey (repo : Repo) (rpmName : String) : String :=
  repo.Name ++ repo.Version ++ repo.Type_ ++ ":" ++ rpmName

/-- The function `getRPMRedis` of `load_redis.go`: the record stored under the
package key, or the error of the first failing `HGET` (with a nil package). -/
def getRPMRedis (c : Redis) (repo : Repo) (rpmName : String) : Except String RPM :=
  match c.find? (fun e => e.1 = pkgKey repo rpmName) with
  | some e => .ok e.2
  | none => .error "redigo: nil returned"

/-- Modelled from the spec: `pkginfo.GetRPM` is called by the resolver but its
body is not among the sources.  The spec gives it as
`FetchPackage(repositoryKey, name) → Package (fails with NotFound if absent)`;
like the wrappers of `populate.go` it hands the query to the redis reader. -/
def GetRPM (c : Redis) (repo : Repo) (rpmName : String) : Except String RPM :=
  getRPMRedis c repo rpmName

/-! ## Dependency closures (`rpmdata.go`) -/

/-- The `RPMDepInfo` record: one dependency closure. -/
structure RPMDepInfo where
  SRPM : Option RPM
  RPMs : GoMap RPM
  Provides : GoMap Bool
  Requires : GoMap Bool
  RevProvides : GoMap Bool

/-- The method `AddRPM`. -/
def AddRPM (rpmDep : RPMDepInfo) (r : RPM) : RPMDepInfo :=
  { rpmDep with RPMs := rpmDep.RPMs.set r.Name r }

/-- What a recursive walk reads and writes: the closure (the receiver), the
`visited` map, and `entered`, which is not program state: it lists, in order,
the package names for which the body past the visited check was run. -/
structure Walk where
  rpmDep : RPMDepInfo
  visited : GoMap Bool
  entered : List String

/-- The method `RecursiveRequires`; `r` is a non-nil package. -/
def RecursiveRequires : Nat → Redis → RPM → Repo → Walk → Option Walk
  | 0, _, _, _, _ => none
  | fuel + 1, c, r, repo, w =>
    if w.visited.contains r.Name then some w
    else
      r.Requires.foldlM
        (fun (w : Walk) (i : String) =>
          let w1 : Walk :=
            { w with rpmDep := { w.rpmDep with Requires := w.rpmDep.Requires.set i true } }
          match GetRPM c repo i with
          | .ok dep => RecursiveRequires fuel c dep repo w1
          | .error _ => some w1)
        { w with visited := w.visited.set r.Name true, entered := w.entered ++ [r.Name] }

/-- The method `RecursiveProvides`; `r` is a non-nil package. -/
def RecursiveProvides : Nat → Redis → RPM → Repo → Walk → Option Walk
  | 0, _, _, _, _ => none
  | fuel + 1, c, r, repo, w =>
    if w.visited.contains r.Name then some w
    else
      r.Provides.foldlM
        (fun (w : Walk) (i : String) =>
          let w1 : Walk :=
            { w with rpmDep := { w.rpmDep with Provides := w.rpmDep.Provides.set i true } }
          match GetRPM c repo i with
          | .ok dep => RecursiveProvides fuel c dep repo w1
          | .error _ => some w1)
        { w with visited := w.visited.set r.Name true, entered := w.entered ++ [r.Name] }

/-! ## The resolver loop (`cmd/rpm_deps.go`) -/

/-- The library function `strings.TrimSuffix`: `s` without the trailing
`suffix` when it ends with it, `s` itself otherwise. -/
def TrimSuffix (s suffix : String) : String :=
  if suffix.data.isSuffixOf s.data then
    String.mk (s.data.take (s.data.length - suffix.data.length))
  else s

/-- The string `fmt.Sprintf("-%s-%s.src.rpm", r.Version, r.Release)`. -/
def srpmSuffix (r : RPM) : String :=
  "-" ++ r.Version ++ "-" ++ r.Release ++ ".src.rpm"

/-- The value `srpmName` of line 105 of `runCheckDependencies`, the key of the
closure of the binary package `r`:
`strings.TrimSuffix(r.SRPMName, fmt.Sprintf("-%s-%s.src.rpm", r.Version, r.Release))`. -/
def closureKey (r : RPM) : String :=
  TrimSuffix r.SRPMName (srpmSuffix r)

/-- How a run can end other than by returning: a read through a nil pointer
(the Go runtime panics; `printed` is the standard output up to there), or, in
the model only, a recursive walk that was given too little fuel. -/
inductive Fault where
  | nilDereference (printed : List String)
  | outOfFuel
  deriving DecidableEq

/-- The state of the resolver loop: the map `depInfo` (a closure that is
changed through its pointer is stored back under its key) and the lines written
to standard output, one entry for each `fmt.Println`. -/
structure RunState where
  depInfo : GoMap RPMDepInfo
  out : List String

/-- The call `rpmDep.RecursiveRequires(r, &repo, make(map[string]bool))` of the
loop: `r` may be nil, and then the first statement of the method, which reads
`r.Name`, faults. -/
def callRecursiveRequires (fuel : Nat) (c : Redis) (rpmDep : RPMDepInfo) (r : Option RPM)
    (repo : Repo) (printed : List String) : Except Fault RPMDepInfo :=
  match r with
  | none => .error (.nilDereference printed)
  | some r =>
    match RecursiveRequires fuel c r repo ⟨rpmDep, GoMap.empty, []⟩ with
    | some w => .ok w.rpmDep
    | none => .error .outOfFuel

/-- The call `rpmDep.RecursiveProvides(r, &repo, make(map[string]bool))` of the
loop, like `callRecursiveRequires`. -/
def callRecursiveProvides (fuel : Nat) (c : Redis) (rpmDep : RPMDepInfo) (r : Option RPM)
    (repo : Repo) (printed : List String) : Except Fault RPMDepInfo :=
  match r with
  | none => .error (.nilDereference printed)
  | some r =>
    match RecursiveProvides fuel c r repo ⟨rpmDep, GoMap.empty, []⟩ with
    | some w => .ok w.rpmDep
    | none => .error .outOfFuel

/-- Lines 110 to 126 of `runCheckDependencies`: when `depInfo` has no closure
under `srpmName`, look the source package up, report a failed lookup, store a
new closure and walk the source package's requires and provides. -/
def seedClosure (fuel : Nat) (c : Redis) (sourceRPMs : Repo) (r : RPM) (srpmName : String)
    (st : RunState) : Except Fault RunState :=
  if st.depInfo.contains srpmName then .ok st
  else
    let found : Option RPM × List String :=
      match GetRPM c sourceRPMs srpmName with
      | .ok srpm => (some srpm, st.out)
      | .error err => (none, st.out ++ ["DANG:  " ++ err])
    let d0 : RPMDepInfo :=
      { SRPM := found.1, RPMs := GoMap.empty.set r.Name r, Provides := GoMap.empty,
        Requires := GoMap.empty, RevProvides := GoMap.empty }
    match callRecursiveRequires fuel c d0 d0.SRPM sourceRPMs found.2 with
    | .error f => .error f
    | .ok d1 =>
      match callRecursiveProvides fuel c d1 d1.SRPM sourceRPMs found.2 with
      | .error f => .error f
      | .ok d2 => .ok { depInfo := st.depInfo.set srpmName d2, out := found.2 }

/-- Lines 127 to 129 of `runCheckDependencies`: the binary package is attached
to the closure and its requires and provides are walked into it. -/
def addBinary (fuel : Nat) (c : Redis) (binaryRPMs : Repo) (rpmDep : RPMDepInfo) (r : RPM)
    (printed : List String) : Except Fault RPMDepInfo :=
  match callRecursiveRequires fuel c (AddRPM rpmDep r) (some r) binaryRPMs printed with
  | .error f => .error f
  | .ok d1 => callRecursiveProvides fuel c d1 (some r) binaryRPMs printed

/-- Lines 132 to 138 of `runCheckDependencies`: the loop over the keys of
`Requires` that prints each and gathers in `missing` those that are no key of
`Provides`.  The result is the pair of `missing` and the lines printed. -/
def missingLoop (rpmDep : RPMDepInfo) : List String × List String :=
  rpmDep.Requires.keys.foldl
    (fun (acc : List String × List String) (req : String) =>
      (if rpmDep.Provides.contains req then acc.1 else acc.1 ++ [req],
        acc.2 ++ ["Req:  " ++ req]))
    ([], [])

/-- The line `"MISSING: " + srpmName + ": " + strings.Join(missing, " || ")`. -/
def missingLine (srpmName : String) (missing : List String) : String :=
  "MISSING: " ++ srpmName ++ ": " ++ " || ".intercalate missing

/-- One iteration of the loop of `runCheckDependencies` (lines 95 to 141), for
the bundle package `pkg`. -/
def resolveStep (fuel : Nat) (c : Redis) (binaryRPMs sourceRPMs : Repo) (st : RunState)
    (pkg : String) : Except Fault RunState :=
  match GetRPM c binaryRPMs pkg with
  | .error err =>
    -- the lookup failed, `r` is nil, and `r.SRPMName` is read next
    .error (.nilDereference (st.out ++ ["ERRORRR:  " ++ err ++ " " ++ pkg]))
  | .ok r =>
    let srpmName := TrimSuffix r.SRPMName (srpmSuffix r)
    match seedClosure fuel c sourceRPMs r srpmName { st with out := st.out ++ [srpmName] } with
    | .error f => .error f
    | .ok st1 =>
      match st1.depInfo.get? srpmName with
      | none => .error (.nilDereference st1.out)
      | some d =>
        match addBinary fuel c binaryRPMs d r st1.out with
        | .error f => .error f
        | .ok d1 =>
          .ok { depInfo := st1.depInfo.set srpmName d1,
                out := st1.out ++ (missingLoop d1).2 ++
                  [missingLine srpmName (missingLoop d1).1] }

/-- The loop of `runCheckDependencies` over the bundle packages, from an empty
`depInfo`.  The repositories and the bundle packages stand for what the
statements before the loop load. -/
def runCheckDependencies (fuel : Nat) (c : Redis) (binaryRPMs sourceRPMs : Repo)
    (bundlePkgs : GoMap Bool) : Except Fault RunState :=
  bundlePkgs.keys.foldlM (resolveStep fuel c binaryRPMs sourceRPMs)
    { depInfo := GoMap.empty, out := [] }

/-- The closure a run leaves under `key`, if the run returned and has one. -/
def closureOf (res : Except Fault RunState) (key : String) : Option RPMDepInfo :=
  match res with
  | .ok st => st.depInfo.get? key
  | .error _ => none

/-- The keys of `depInfo` after a run that returned. -/
def closureKeys (res : Except Fault RunState) : List String :=
  match res with
  | .ok st => st.depInfo.keys
  | .error _ => []

/-- The standard output of a run that returned. -/
def outputOf (res : Except Fault RunState) : List String :=
  match res with
  | .ok st => st.out
  | .error _ => []

/-- Whether a line of the output begins like a MISSING report. -/
def isMissingReport (line : String) : Bool :=
  "MISSING: ".data.isPrefixOf line.data

/-- The number of lines of the output that begin like a MISSING report. -/
def missingReports (out : List String) : Nat :=
  (out.filter isMissingReport).length

/-- Both recursive methods in one: `sel` picks the declared strings that are
walked and `add` is the write into the closure.  It serves the proofs;
`RecursiveRequires_eq_walk` and `RecursiveProvides_eq_walk` relate it to the
two methods. -/
def walk (sel : RPM → List String) (add : RPMDepInfo → String → RPMDepInfo) :
    Nat → Redis → RPM → Repo → Walk → Option Walk
  | 0, _, _, _, _ => none
  | fuel + 1, c, r, repo, w =>
    if w.visited.contains r.Name then some w
    else
      (sel r).foldlM
        (fun (w : Walk) (i : String) =>
          match GetRPM c repo i with
          | .ok dep => walk sel add fuel c dep repo { w with rpmDep := add w.rpmDep i }
          | .error _ => some { w with rpmDep := add w.rpmDep i })
        { w with visited := w.visited.set r.Name true, entered := w.entered ++ [r.Name] }

/-- The write `rpmDep.Requires[i] = true`. -/
def addRequires (d : RPMDepInfo) (i : String) : RPMDepInfo :=
  { d with Requires := d.Requires.set i true }

/-- The write `rpmDep.Provides[i] = true`. -/
def addProvides (d : RPMDepInfo) (i : String) : RPMDepInfo :=
  { d with Provides := d.Provides.set i true }

/-- The number of package names the store can still return that are not yet in
`visited`: the measure that bounds the depth of a walk. -/
def unvisited (c : Redis) (v : GoMap Bool) : Nat :=
  ((c.map (fun e => e.2.Name)).toFinset.filter (fun n => n ∉ v.keys)).card

/-- How a walk moves `visited` and `entered`: `visited` keeps its keys, and
`entered` grows by names, no name twice, that were not visited before and are
visited after. -/
def VisitRel (w w' : Walk) : Prop :=
  (∀ n ∈ w.visited.keys, n ∈ w'.visited.keys) ∧
    ∃ t, w'.entered = w.entered ++ t ∧ t.Nodup ∧
      ∀ n ∈ t, n ∉ w.visited.keys ∧ n ∈ w'.visited.keys

/-- The relation `Reach sel c repo p q`: from `p` one arrives at `q` by steps that take one
of the strings `sel` declares for a package and resolve it, as a package name,
in the repository. -/
inductive Reach (sel : RPM → List String) (c : Redis) (repo : Repo) : RPM → RPM → Prop
  | refl (p : RPM) : Reach sel c repo p p
  | step (p q s : RPM) (i : String) : Reach sel c repo p q → i ∈ sel q →
      GetRPM c repo i = .ok s → Reach sel c repo p s

/-- Looking up a name returns a package with that name. -/
def NameConsistent (c : Redis) (repo : Repo) : Prop :=
  ∀ (i : String) (q : RPM), GetRPM c repo i = .ok q → q.Name = i

/-- The law of the transitive requires: `RecursiveRequires` from `r` with an
empty `visited` map returns, and afterwards the closure requires what it
required before together with the declared requires of every package reachable
from `r`. -/
def RequiresClosureLaw (c : Redis) (repo : Repo) (r : RPM) (d : RPMDepInfo) : Prop :=
  ∃ w', (∀ extra, RecursiveRequires (c.length + 2 + extra) c r repo ⟨d, GoMap.empty, []⟩
        = some w') ∧
    ∀ s, s ∈ w'.rpmDep.Requires.keys ↔
      s ∈ d.Requires.keys ∨ ∃ q, Reach RPM.Requires c repo r q ∧ s ∈ q.Requires

/-- The packages a walk from `r0` can meet: `r0` and what the store returns. -/
def InUniverse (c : Redis) (repo : Repo) (r0 : RPM) (p : RPM) : Prop :=
  p = r0 ∨ ∃ i, GetRPM c repo i = .ok p

/-- The package named `n` is dealt with in `w`: each string it declares is in
the closure, and each package such a string resolves to is visited. -/
def Done (sel : RPM → List String) (keysOf : RPMDepInfo → List String) (c : Redis)
    (repo : Repo) (r0 : RPM) (n : String) (w : Walk) : Prop :=
  ∀ p, InUniverse c repo r0 p → p.Name = n → ∀ i ∈ sel p,
    i ∈ keysOf w.rpmDep ∧ ∀ q, GetRPM c repo i = .ok q → q.Name ∈ w.visited.keys

/-- Neither `visited` nor the closure loses a key. -/
def Grow (keysOf : RPMDepInfo → List String) (w w' : Walk) : Prop :=
  (∀ n ∈ w.visited.keys, n ∈ w'.visited.keys) ∧
    ∀ x ∈ keysOf w.rpmDep, x ∈ keysOf w'.rpmDep

/-- The walk invariant for completeness: nothing is lost, and every name that
became visited is dealt with. -/
def Compl (sel : RPM → List String) (keysOf : RPMDepInfo → List String) (c : Redis)
    (repo : Repo) (r0 : RPM) (w w' : Walk) : Prop :=
  Grow keysOf w w' ∧
    ∀ n ∈ w'.visited.keys, n ∉ w.visited.keys → Done sel keysOf c repo r0 n w'

/-- The walk invariant for soundness: what the closure gained is declared by a
package reachable from `r`. -/
def Sound (sel : RPM → List String) (keysOf : RPMDepInfo → List String) (c : Redis)
    (repo : Repo) (r : RPM) (w w' : Walk) : Prop :=
  ∀ x ∈ keysOf w'.rpmDep, x ∈ keysOf w.rpmDep ∨ ∃ q, Reach sel c repo r q ∧ x ∈ sel q

/-! ## The mirror of requires and provides -/

/-- The package with its Requires and Provides exchanged. -/
def swapRPM (p : RPM) : RPM :=
  { p with Requires := p.Provides, Provides := p.Requires }

/-- The store with Requires and Provides exchanged in every package. -/
def swapStore (c : Redis) : Redis :=
  c.map (fun e => (e.1, swapRPM e.2))

/-- The closure with its Requires and Provides sets exchanged. -/
def swapDep (d : RPMDepInfo) : RPMDepInfo :=
  { d with Requires := d.Provides, Provides := d.Requires }

/-- The state of a walk with the two sets of its closure exchanged; `visited`
stays as it is. -/
def swapWalk (w : Walk) : Walk :=
  { w with rpmDep := swapDep w.rpmDep }

/-! ## Paths (`path/filepath` of the Go library, Unix) -/

/-- The scan of `filepath.Clean` at one path element `e`.  The state is the
number `ups` of leading `..` elements already written (where Go keeps the index
`dotdot`) and the elements written after them. -/
def cleanStep (rooted : Bool) (st : Nat × List (List Char)) (e : List Char) :
    Nat × List (List Char) :=
  if e = [] ∨ e = ['.'] then st
  else if e = ['.', '.'] then
    if st.2 ≠ [] then (st.1, st.2.dropLast)
    else if rooted then st
    else (st.1 + 1, st.2)
  else (st.1, st.2 ++ [e])

/-- The library function `filepath.Clean`: the shortest path that names the
same file by lexical processing.  Empty and `.` elements go, an inner `..`
goes with the element before it, `..` after the root goes, and the empty result
is `.`. -/
def Clean (path : String) : String :=
  if path.data = [] then "."
  else
    let rooted : Bool := path.data.head? = some '/'
    let st := (path.data.splitOn '/').foldl (cleanStep rooted) (0, [])
    let body := ['/'].intercalate (List.replicate st.1 ['.', '.'] ++ st.2)
    if rooted then String.mk ('/' :: body)
    else if body = [] then "."
    else String.mk body

/-- The library function `filepath.Join`: the elements, from the first that is
not empty on, put together with slashes and cleaned. -/
def Join (elem : List String) : String :=
  match elem.dropWhile (fun e => e.data = []) with
  | [] => ""
  | rest => Clean (String.mk (['/'].intercalate (rest.map String.data)))

/-- The library function `filepath.Dir`: the path up to its last slash,
cleaned. -/
def Dir (path : String) : String :=
  Clean (String.mk (path.data.reverse.dropWhile (fun ch => ch ≠ '/')).reverse)

/-- A plain path element: not empty, not `.`, not `..`, and without a slash. -/
def PlainElem (e : List Char) : Prop :=
  e ≠ [] ∧ e ≠ ['.'] ∧ e ≠ ['.', '.'] ∧ '/' ∉ e

/-- A plain path: one or more plain elements with single slashes between them,
after a leading slash or without one; no slash at the end. -/
def PlainPath (p : String) : Prop :=
  ∃ (rooted : Bool) (comps : List (List Char)), comps ≠ [] ∧ (∀ e ∈ comps, PlainElem e) ∧
    p.data = (if rooted then ['/'] else []) ++ ['/'].intercalate comps

/-! ## Manifests and the content fetcher (`download_manifests.go`) -/

/-- The `swupd.File` record of the mixer-tools library as far as it is read
here; `Hash` is the string `f.Hash.String()`, `Version` a `uint32`, and
`Present` the result of the method `f.Present()` (the spec's present flag). -/
structure File where
  Name : String
  Hash : String
  Version : Nat
  Present : Bool
  deriving DecidableEq

/-- The `swupd.Manifest` record as far as it is read here. -/
structure Manifest where
  Name : String
  Files : List File
  deriving DecidableEq

/-- The `pkginfo.ManifestInfo` record as far as it is read here. -/
structure ManifestInfo where
  UpstreamURL : String
  Version : String
  CacheLoc : String
  deriving DecidableEq

/-- The file system and the network as the fetcher meets them: whether
`os.Lstat` finds a path, the error (if any) of `os.MkdirAll` and of
`helpers.TarExtractURL`, and the result of `swupd.ParseManifestFile`.  The
answers are taken as fixed for the length of one call. -/
structure Env where
  lstat : String → Bool
  mkdirAll : String → Option String
  tarExtractURL : String → String → Option String
  parseManifestFile : String → Except String Manifest

/-- The function `GetManfest`; the result is the error, `none` for nil. -/
def GetManfest (env : Env) (baseURL version component outF : String) : Option String :=
  if env.lstat outF then none
  else
    let url := baseURL ++ "/update/" ++ version ++ "/Manifest." ++ component ++ ".tar"
    match env.mkdirAll (Dir outF) with
    | some err => some err
    | none => env.tarExtractURL url outF

/-- The function `GetMom`. -/
def GetMom (env : Env) (mInfo : ManifestInfo) : Except String Manifest :=
  let baseCache := Join [mInfo.CacheLoc, "update"]
  let outMoM := Join [baseCache, mInfo.Version, "Manifest.MoM"]
  match GetManfest env mInfo.UpstreamURL mInfo.Version "MoM" outMoM with
  | some err => .error err
  | none => env.parseManifestFile outMoM

/-- The record `finfo`: a download job. -/
structure finfo where
  out : String
  url : String
  err : Option String
  deriving DecidableEq

/-- The string `fURL` of `getAllManifestFiles`:
`fmt.Sprintf("%s/update/%d/files/%s.tar", mInfo.UpstreamURL, f.Version, f.Hash)`. -/
def fileURL (mInfo : ManifestInfo) (f : File) : String :=
  mInfo.UpstreamURL ++ "/update/" ++ toString f.Version ++ "/files/" ++ f.Hash ++ ".tar"

/-- The string `fOut` of `getAllManifestFiles`:
`filepath.Join(baseCache, fmt.Sprint(f.Version), "files", f.Hash.String()+".tar")`. -/
def fileOut (mInfo : ManifestInfo) (f : File) : String :=
  Join [Join [mInfo.CacheLoc, "update"], toString f.Version, "files", f.Hash ++ ".tar"]

/-- The string `outMan` of `getAllManifestFiles` for the entry `mf` of the MoM:
`filepath.Join(baseCache, mv, "Manifest."+mf.Name)`. -/
def manifestOut (mInfo : ManifestInfo) (mf : File) : String :=
  Join [Join [mInfo.CacheLoc, "update"], toString mf.Version, "Manifest." ++ mf.Name]

/-- The inner loop of `getAllManifestFiles` (lines 108 to 121) over the file
entries of one component manifest. -/
def collectFiles (mInfo : ManifestInfo) (dlFiles : GoMap finfo) (files : List File) :
    GoMap finfo :=
  files.foldl
    (fun (dl : GoMap finfo) (f : File) =>
      if !f.Present then dl
      else dl.set (fileOut mInfo f) { out := fileOut mInfo f, url := fileURL mInfo f, err := none })
    dlFiles

/-- The body of the outer loop of `getAllManifestFiles` (lines 96 to 121) for
the entry `mf` of the MoM. -/
def collectComponent (env : Env) (mInfo : ManifestInfo) (dlFiles : GoMap finfo) (mf : File) :
    Except String (GoMap finfo) :=
  match GetManfest env mInfo.UpstreamURL (toString mf.Version) mf.Name (manifestOut mInfo mf) with
  | some err => .error err
  | none =>
    match env.parseManifestFile (manifestOut mInfo mf) with
    | .error err => .error err
    | .ok m => .ok (collectFiles mInfo dlFiles m.Files)

/-- The function `getAllManifestFiles`. -/
def getAllManifestFiles (env : Env) (mInfo : ManifestInfo) : Except String (GoMap finfo) :=
  match GetMom env mInfo with
  | .error err => .error err
  | .ok mom => mom.Files.foldlM (collectComponent env mInfo) GoMap.empty

/-- The file entry `f` is present in a component manifest of the tree that
`getAllManifestFiles` loads. -/
def InTree (env : Env) (mInfo : ManifestInfo) (f : File) : Prop :=
  ∃ mom mf m, GetMom env mInfo = .ok mom ∧ mf ∈ mom.Files ∧
    env.parseManifestFile (manifestOut mInfo mf) = .ok m ∧ f ∈ m.Files ∧ f.Present = true

/-- The job that `getAllManifestFiles` makes for the file entry `f`. -/
def jobOf (mInfo : ManifestInfo) (f : File) : finfo :=
  { out := fileOut mInfo f, url := fileURL mInfo f, err := none }

/-- Whether the job `j` downloads the archive of the hash `hash`: its URL ends
in `/files/{hash}.tar`. -/
def isJobForHash (hash : String) (j : finfo) : Bool :=
  ("/files/" ++ hash ++ ".tar").data.isSuffixOf j.url.data

/-- The jobs of a job set, in the order `range` visits them; none when the
collection failed. -/
def jobsOf (res : Except String (GoMap finfo)) : List finfo :=
  match res with
  | .ok dl => dl.entries.map Prod.snd
  | .error _ => []

/-! ## The worker pool of `UpdateFiles`

The goroutines of `UpdateFiles` are a transition system.  A state holds where
the main goroutine and each of the eight workers stand and what the buffered
channel `errChan` holds; an action is one step of one goroutine; a run is a
list of actions, in any order the scheduler may choose. -/

/-- The constant `nworkers`. -/
def nworkers : Nat := 8

/-- Where a worker goroutine stands: at `for f := range fChan`, ready to
receive; holding the job `f` it received; at `errChan <- f.err`, ready to
send; or past the loop, its `wg.Done()` run. -/
inductive WorkerState where
  | receiving
  | working (f : finfo)
  | sending (err : String)
  | done
  deriving DecidableEq

/-- Where the main goroutine stands: in `for f := range dlFiles` with the jobs
it has still to send on `fChan`; past `close(fChan)`, at `wg.Wait()`; or
returned from `UpdateFiles` with nil. -/
inductive MainState where
  | dispatching (pending : List finfo)
  | waiting
  | returned
  deriving DecidableEq

/-- A state of the pool. -/
structure PoolState where
  main : MainState
  workers : List WorkerState
  errChan : List String
  deriving DecidableEq

/-- One step of one goroutine: the unbuffered `fChan` hands a job from the main
goroutine to worker `i`; the main goroutine closes `fChan`; worker `i` deals
with the job it holds; worker `i` sends on `errChan`; worker `i` leaves its
loop; the main goroutine returns. -/
inductive Action where
  | handoff (i : Nat)
  | close
  | work (i : Nat)
  | send (i : Nat)
  | exit (i : Nat)
  | ret
  deriving DecidableEq

/-- What a worker does with a job before it asks for the next (lines 144 to
153): nothing when the unpacked file is in the cache, else download and unpack;
the result is the error to send on `errChan`, if there is one. -/
def jobOutcome (env : Env) (f : finfo) : Option String :=
  if env.lstat (TrimSuffix f.out ".tar") then none
  else env.tarExtractURL f.url f.out

/-- The state an action leads to, or `none` when the action cannot be taken:
a send on `fChan` needs a worker that receives, a send on `errChan` needs room
in the buffer of `nworkers` errors, which nothing ever reads, a worker leaves
its loop when `fChan` is closed, and `wg.Wait()` returns when every worker is
done. -/
def poolStep (env : Env) (s : PoolState) : Action → Option PoolState
  | .handoff i =>
    match s.main, s.workers.get? i with
    | .dispatching (f :: rest), some .receiving =>
      some { s with main := .dispatching rest, workers := s.workers.set i (.working f) }
    | _, _ => none
  | .close =>
    match s.main with
    | .dispatching [] => some { s with main := .waiting }
    | _ => none
  | .work i =>
    match s.workers.get? i with
    | some (.working f) =>
      match jobOutcome env f with
      | none => some { s with workers := s.workers.set i .receiving }
      | some err => some { s with workers := s.workers.set i (.sending err) }
    | _ => none
  | .send i =>
    match s.workers.get? i with
    | some (.sending err) =>
      if s.errChan.length < nworkers then
        some { s with errChan := s.errChan ++ [err], workers := s.workers.set i .receiving }
      else none
    | _ => none
  | .exit i =>
    match s.main, s.workers.get? i with
    | .waiting, some .receiving => some { s with workers := s.workers.set i .done }
    | _, _ => none
  | .ret =>
    match s.main with
    | .waiting =>
      if s.workers.all (fun w => w = .done) then some { s with main := .returned } else none
    | _ => none

/-- The state after a run, or `none` when one of its actions cannot be taken. -/
def runActions (env : Env) (s : PoolState) (acts : List Action) : Option PoolState :=
  acts.foldlM (poolStep env) s

/-- The pool when the workers are started and no job is sent yet. -/
def poolInit (jobs : List finfo) : PoolState :=
  { main := .dispatching jobs, workers := List.replicate nworkers .receiving, errChan := [] }

/-- The function `UpdateFiles` up to the start of the pool: the error of
`getAllManifestFiles` is returned at once, else the pool starts with the jobs
of the job set. -/
def UpdateFiles (env : Env) (mInfo : ManifestInfo) : Except String PoolState :=
  match getAllManifestFiles env mInfo with
  | .error err => .error err
  | .ok dlFiles => .ok (poolInit (dlFiles.entries.map Prod.snd))

/-- Whether a job, when a worker deals with it, ends in a send on `errChan`. -/
def jobFails (env : Env) (f : finfo) : Bool := (jobOutcome env f).isSome

/-- The sends on `errChan` a worker has still to make or may have to make. -/
def workerDebt (env : Env) : WorkerState → Nat
  | .receiving => 0
  | .working f => if jobFails env f then 1 else 0
  | .sending _ => 1
  | .done => 0

/-- The jobs the main goroutine has still to send. -/
def pendingJobs : MainState → List finfo
  | .dispatching pending => pending
  | .waiting => []
  | .returned => []

/-- The number of failing jobs of a state: those not yet handed out, those in
the hands of a worker, and the errors already in `errChan`. -/
def failures (env : Env) (s : PoolState) : Nat :=
  (pendingJobs s.main).countP (jobFails env) + (s.workers.map (workerDebt env)).sum +
    s.errChan.length

/-! ## Concrete manifest trees used in the examples -/

/-- An environment with an empty cache in which every download succeeds and
the manifest archives unpack to the given manifests: `manifests` lists, for
each local path, the manifest parsed from it. -/
def envOf (manifests : List (String × Manifest)) : Env :=
  { lstat := fun _ => false
    mkdirAll := fun _ => none
    tarExtractURL := fun _ _ => none
    parseManifestFile := fun path =>
      match manifests.find? (fun e => e.1 = path) with
      | some e => .ok e.2
      | none => .error "open: no such file or directory" }

/-- The origin and cache of the examples. -/
def cdnInfo : ManifestInfo :=
  { UpstreamURL := "https://cdn.example.org", Version := "10", CacheLoc := "/cache" }

/-- The file entry for the hash `deadbeef`, present, at the given version. -/
def deadbeefAt (version : Nat) : File :=
  { Name := "/usr/bin/tool", Hash := "deadbeef", Version := version, Present := true }

/-- Scenario 2: the components `core` and `os-core-update`, both at version
10, both list the hash `deadbeef`, present, at version 10. -/
def scenario2Env : Env :=
  envOf
    [("/cache/update/10/Manifest.MoM",
        { Name := "MoM", Files := [⟨"core", "c0", 10, true⟩, ⟨"os-core-update", "c1", 10, true⟩] }),
     ("/cache/update/10/Manifest.core", { Name := "core", Files := [deadbeefAt 10] }),
     ("/cache/update/10/Manifest.os-core-update",
        { Name := "os-core-update", Files := [deadbeefAt 10] })]

/-- Like scenario 2, but `os-core-update` lists `deadbeef` at version 20. -/
def twoVersionsEnv : Env :=
  envOf
    [("/cache/update/10/Manifest.MoM",
        { Name := "MoM", Files := [⟨"core", "c0", 10, true⟩, ⟨"os-core-update", "c1", 10, true⟩] }),
     ("/cache/update/10/Manifest.core", { Name := "core", Files := [deadbeefAt 10] }),
     ("/cache/update/10/Manifest.os-core-update",
        { Name := "os-core-update", Files := [deadbeefAt 20] })]

/-- The file entry for the hash `hash`, present, at version 10. -/
def entryOf (hash : String) : File :=
  { Name := "/usr/lib/" ++ hash, Hash := hash, Version := 10, Present := true }

/-- An origin that serves the manifests and none of the file archives: the
component `core` lists nine present file entries with nine hashes, nothing is
in the cache, and every download of a file archive fails. -/
def nineFailuresEnv : Env :=
  { lstat := fun _ => false
    mkdirAll := fun _ => none
    tarExtractURL := fun _ out =>
      if out = "/cache/update/10/Manifest.MoM" ∨ out = "/cache/update/10/Manifest.core" then none
      else some "404 Not Found"
    parseManifestFile := fun path =>
      if path = "/cache/update/10/Manifest.MoM" then
        .ok { Name := "MoM", Files := [⟨"core", "c0", 10, true⟩] }
      else if path = "/cache/update/10/Manifest.core" then
        .ok { Name := "core",
              Files := ["h1", "h2", "h3", "h4", "h5", "h6", "h7", "h8", "h9"].map entryOf }
      else .error "open: no such file or directory" }

/-- A schedule for nine jobs: worker 0 takes the jobs one after the other and
deals with each, the main goroutine closes `fChan`, and the other workers leave
their loops. -/
def nineFailuresSchedule : List Action :=
  (List.replicate 8 [Action.handoff 0, Action.work 0, Action.send 0]).flatten ++
    [Action.handoff 0, Action.work 0, Action.close,
      Action.exit 1, Action.exit 2, Action.exit 3, Action.exit 4, Action.exit 5,
      Action.exit 6, Action.exit 7]

/-- The nine jobs of `nineFailuresEnv`. -/
def nineJobs : List finfo :=
  ["h1", "h2", "h3", "h4", "h5", "h6", "h7", "h8", "h9"].map
    (fun hash => jobOf cdnInfo (entryOf hash))

/-- Where `nineFailuresSchedule` ends: eight errors fill `errChan`, worker 0
stands at its ninth send, the other workers are done, and the main goroutine
stands at `wg.Wait()`. -/
def nineFailuresEnd : PoolState :=
  { main := .waiting
    workers := .sending "404 Not Found" :: List.replicate 7 .done
    errChan := List.replicate 8 "404 Not Found" }

/-! ## Concrete packages and stores used in the examples -/

/-- A package with a name, its requires and its provides, and nothing else. -/
def mkRPM (name : String) (requires provides : List String) : RPM :=
  { Name := name, Version := "", Release := "", Architecture := "", SRPMName := "",
    License := "", Requires := requires, BuildRequires := [], Provides := provides }

/-- The binary repository `clear`, version 10. -/
def binRepo : Repo := { Name := "clear", Version := "10", Type_ := "B" }

/-- The source repository `clear`, version 10. -/
def srcRepo : Repo := { Name := "clear", Version := "10", Type_ := "SRPM" }

/-- A closure that holds nothing. -/
def emptyDep : RPMDepInfo :=
  { SRPM := none, RPMs := GoMap.empty, Provides := GoMap.empty, Requires := GoMap.empty,
    RevProvides := GoMap.empty }

/-- Scenario 1: the binary repository holds `A`, which provides `libfoo`, and
`B`, which requires `libfoo` and `libbar` and was built from `src-B`; the source
repository holds `src-B`, which requires nothing. -/
def scenarioStore : Redis :=
  [("clear10B:A", mkRPM "A" [] ["libfoo"]),
   ("clear10B:B", { mkRPM "B" ["libfoo", "libbar"] [] with SRPMName := "src-B" }),
   ("clear10SRPM:src-B", mkRPM "src-B" [] [])]

/-- The bundle package list that holds `B` alone. -/
def bundleB : GoMap Bool := GoMap.empty.set "B" true

/-- A store like `scenarioStore` whose source repository lacks `src-B`. -/
def orphanStore : Redis :=
  [("clear10B:A", { mkRPM "A" [] ["libfoo"] with SRPMName := "src-A" }),
   ("clear10B:B", { mkRPM "B" ["libfoo", "libbar"] [] with SRPMName := "src-B" }),
   ("clear10SRPM:src-A", mkRPM "src-A" [] [])]

/-- A binary package of version 1.0, release 1, built from `src`. -/
def builtFromSrc (name : String) (requires provides : List String) : RPM :=
  { mkRPM name requires provides with
    Version := "1.0", Release := "1", SRPMName := "src-1.0-1.src.rpm" }

/-- A store in which the binary packages `A` and `B` are both built from the
source package `src`. -/
def sharedStore : Redis :=
  [("clear10B:A", builtFromSrc "A" ["libfoo"] ["liba"]),
   ("clear10B:B", builtFromSrc "B" ["liba", "libbar"] ["libb"]),
   ("clear10SRPM:src", mkRPM "src" [] [])]

/-- The bundle package list that holds `A` and `B`. -/
def bundleAB : GoMap Bool := (GoMap.empty.set "A" true).set "B" true

/-- A store with a cycle: `a` requires `b` and `zlib`, `b` requires `a` and `c`;
no package is called `zlib` or `c`. -/
def cycleStore : Redis :=
  [("clear10B:a", mkRPM "a" ["b", "zlib"] ["a"]), ("clear10B:b", mkRPM "b" ["a", "c"] ["b"])]

/-- A store in which `b` requires `a`, and the stored `a` requires `c`. -/
def shadowStore : Redis :=
  [("clear10B:a", mkRPM "a" ["c"] []), ("clear10B:b", mkRPM "b" ["a"] [])]

/-- A package that is called `a` like the one stored in `shadowStore`, but
requires `b`. -/
def shadowStart : RPM := mkRPM "a" ["b"] []

end Diva

namespace Diva

/-! ## Lemmas on maps -/

theorem mem_setEntry_keys {α : Type} (k : String) (v : α) (l : List (String × α)) (x : String) :
    x ∈ (setEntry k v l).map Prod.fst ↔ x = k ∨ x ∈ l.map Prod.fst := by
  induction l with
  | nil => simp [setEntry]
  | cons e rest ih =>
    by_cases hk : e.1 = k
    · simp only [setEntry, if_pos hk, List.map_cons, List.mem_cons]
      rw [hk]
      tauto
    · simp only [setEntry, if_neg hk, List.map_cons, List.mem_cons, ih]
      tauto

theorem GoMap.mem_keys_set {α : Type} (m : GoMap α) (k : String) (v : α) (x : String) :
    x ∈ (m.set k v).keys ↔ x = k ∨ x ∈ m.keys :=
  mem_setEntry_keys k v m.entries x

theorem GoMap.contains_iff {α : Type} (m : GoMap α) (k : String) :
    m.contains k = true ↔ k ∈ m.keys := by
  unfold GoMap.contains GoMap.keys
  simp only [List.any_eq_true, decide_eq_true_eq, List.mem_map]

theorem GoMap.keys_empty {α : Type} : (GoMap.empty : GoMap α).keys = [] := rfl

theorem GoMap.keys_nodup {α : Type} (m : GoMap α) : m.keys.Nodup := m.nodup

/-! ## Lemmas on loops that may stop early -/

/-- A loop that relates each state to the next by a preorder `R` relates its
first state to its last, and what an iteration establishes for its own
element, if `R` keeps it, holds at the end for every element. -/
theorem foldlM_option_each {σ ι : Type} (f : σ → ι → Option σ) (R : σ → σ → Prop)
    (Q : ι → σ → Prop) (hr : ∀ s, R s s) (ht : ∀ a b c, R a b → R b c → R a c)
    (hQ : ∀ i s s', R s s' → Q i s → Q i s') (l : List ι)
    (hstep : ∀ s i s', i ∈ l → f s i = some s' → R s s' ∧ Q i s') :
    ∀ s s', l.foldlM f s = some s' → R s s' ∧ ∀ i ∈ l, Q i s' := by
  induction l with
  | nil =>
    intro s s' h
    simp only [List.foldlM_nil, Option.pure_def, Option.some.injEq] at h
    subst h
    exact ⟨hr s, by simp⟩
  | cons i rest ih =>
    intro s s' h
    simp only [List.foldlM_cons, Option.bind_eq_bind] at h
    cases hfi : f s i with
    | none => rw [hfi] at h; simp at h
    | some s1 =>
      rw [hfi] at h
      simp only [Option.some_bind] at h
      obtain ⟨h1, hq1⟩ := hstep s i s1 (List.mem_cons_self _ _) hfi
      obtain ⟨h2, hq2⟩ :=
        ih (fun s i s' hi => hstep s i s' (List.mem_cons_of_mem _ hi)) s1 s' h
      refine ⟨ht _ _ _ h1 h2, ?_⟩
      intro j hj
      rcases List.mem_cons.mp hj with rfl | hj
      · exact hQ _ _ _ h2 hq1
      · exact hq2 j hj

/-- The first half of `foldlM_option_each` alone. -/
theorem foldlM_option_rel {σ ι : Type} (f : σ → ι → Option σ) (R : σ → σ → Prop)
    (hr : ∀ s, R s s) (ht : ∀ a b c, R a b → R b c → R a c) (l : List ι)
    (hstep : ∀ s i s', i ∈ l → f s i = some s' → R s s') :
    ∀ s s', l.foldlM f s = some s' → R s s' := fun s s' h =>
  (foldlM_option_each f R (fun _ _ => True) hr ht (fun _ _ _ _ _ => trivial) l
    (fun s i s' hi hf => ⟨hstep s i s' hi hf, trivial⟩) s s' h).1

/-- A loop whose every iteration returns, from the states an invariant `J`
allows, returns. -/
theorem foldlM_option_total {σ ι : Type} (f : σ → ι → Option σ) (J : σ → Prop) (l : List ι)
    (hstep : ∀ s i, i ∈ l → J s → ∃ s', f s i = some s' ∧ J s') :
    ∀ s, J s → ∃ s', l.foldlM f s = some s' ∧ J s' := by
  induction l with
  | nil => intro s hs; exact ⟨s, rfl, hs⟩
  | cons i rest ih =>
    intro s hs
    obtain ⟨s1, h1, hj1⟩ := hstep s i (List.mem_cons_self _ _) hs
    obtain ⟨s2, h2, hj2⟩ := ih (fun s i hi => hstep s i (List.mem_cons_of_mem _ hi)) s1 hj1
    refine ⟨s2, ?_, hj2⟩
    simp only [List.foldlM_cons, Option.bind_eq_bind, h1, Option.some_bind]
    exact h2


/-! ## The two methods are instances of `walk` -/

theorem RecursiveRequires_eq_walk (fuel : Nat) (c : Redis) (r : RPM) (repo : Repo) (w : Walk) :
    RecursiveRequires fuel c r repo w = walk RPM.Requires addRequires fuel c r repo w := by
  induction fuel generalizing r w with
  | zero => rfl
  | succ n ih =>
    simp only [RecursiveRequires, walk]
    split
    · rfl
    · congr 1
      funext w i
      cases GetRPM c repo i with
      | ok dep => exact ih dep _
      | error e => rfl

theorem RecursiveProvides_eq_walk (fuel : Nat) (c : Redis) (r : RPM) (repo : Repo) (w : Walk) :
    RecursiveProvides fuel c r repo w = walk RPM.Provides addProvides fuel c r repo w := by
  induction fuel generalizing r w with
  | zero => rfl
  | succ n ih =>
    simp only [RecursiveProvides, walk]
    split
    · rfl
    · congr 1
      funext w i
      cases GetRPM c repo i with
      | ok dep => exact ih dep _
      | error e => rfl

/-! ## Fuel -/

theorem foldlM_option_imp {σ ι : Type} (f g : σ → ι → Option σ)
    (h : ∀ s i s', f s i = some s' → g s i = some s') (l : List ι) :
    ∀ s s', l.foldlM f s = some s' → l.foldlM g s = some s' := by
  induction l with
  | nil => intro s s' hs; exact hs
  | cons i rest ih =>
    intro s s' hs
    simp only [List.foldlM_cons, Option.bind_eq_bind] at hs ⊢
    cases hfi : f s i with
    | none => rw [hfi] at hs; simp at hs
    | some s1 =>
      rw [hfi] at hs
      rw [h s i s1 hfi]
      exact ih s1 s' hs

/-- More fuel does not change a result. -/
theorem walk_succ (sel : RPM → List String) (add : RPMDepInfo → String → RPMDepInfo)
    (c : Redis) (repo : Repo) (fuel : Nat) :
    ∀ (r : RPM) (w w' : Walk), walk sel add fuel c r repo w = some w' →
      walk sel add (fuel + 1) c r repo w = some w' := by
  induction fuel with
  | zero => intro r w w' h; simp [walk] at h
  | succ n ih =>
    intro r w w' h
    rw [walk] at h ⊢
    split
    · rename_i hv
      rw [if_pos hv] at h
      exact h
    · rename_i hv
      rw [if_neg hv] at h
      refine foldlM_option_imp _ _ ?_ _ _ _ h
      intro s i s' hs
      cases hg : GetRPM c repo i with
      | ok dep =>
        rw [hg] at hs
        exact ih dep _ _ hs
      | error e =>
        rw [hg] at hs
        exact hs

theorem walk_mono (sel : RPM → List String) (add : RPMDepInfo → String → RPMDepInfo)
    (c : Redis) (repo : Repo) (r : RPM) (w w' : Walk) (f g : Nat) (hfg : f ≤ g)
    (h : walk sel add f c r repo w = some w') : walk sel add g c r repo w = some w' := by
  induction hfg with
  | refl => exact h
  | step _ ih => exact walk_succ sel add c repo _ r w w' ih


/-! ## What a walk does to `visited` and `entered` -/

theorem visitRel_refl (w : Walk) : VisitRel w w :=
  ⟨fun _ h => h, [], by simp, List.nodup_nil, by simp⟩

theorem visitRel_trans (a b d : Walk) (h1 : VisitRel a b) (h2 : VisitRel b d) :
    VisitRel a d := by
  obtain ⟨m1, t1, e1, n1, p1⟩ := h1
  obtain ⟨m2, t2, e2, n2, p2⟩ := h2
  refine ⟨fun n hn => m2 n (m1 n hn), t1 ++ t2, ?_, ?_, ?_⟩
  · rw [e2, e1, List.append_assoc]
  · rw [List.nodup_append]
    refine ⟨n1, n2, ?_⟩
    intro x hx1 hx2
    exact (p2 x hx2).1 (p1 x hx1).2
  · intro n hn
    rcases List.mem_append.mp hn with hn | hn
    · exact ⟨(p1 n hn).1, m2 n (p1 n hn).2⟩
    · exact ⟨fun h => (p2 n hn).1 (m1 n h), (p2 n hn).2⟩

/-- Marking a name that is not yet visited. -/
theorem visitRel_mark (w : Walk) (n : String) (hn : n ∉ w.visited.keys) :
    VisitRel w { w with visited := w.visited.set n true, entered := w.entered ++ [n] } := by
  refine ⟨fun x hx => (GoMap.mem_keys_set _ _ _ _).mpr (Or.inr hx), [n], rfl,
    List.nodup_singleton n, ?_⟩
  intro x hx
  rw [List.mem_singleton] at hx
  subst hx
  exact ⟨hn, (GoMap.mem_keys_set _ _ _ _).mpr (Or.inl rfl)⟩

theorem walk_visitRel (sel : RPM → List String) (add : RPMDepInfo → String → RPMDepInfo)
    (c : Redis) (repo : Repo) (fuel : Nat) :
    ∀ (r : RPM) (w w' : Walk), walk sel add fuel c r repo w = some w' →
      VisitRel w w' ∧ r.Name ∈ w'.visited.keys := by
  induction fuel with
  | zero => intro r w w' h; simp [walk] at h
  | succ n ih =>
    intro r w w' h
    rw [walk] at h
    by_cases hv : w.visited.contains r.Name = true
    · rw [if_pos hv] at h
      simp only [Option.some.injEq] at h
      subst h
      exact ⟨visitRel_refl w, (GoMap.contains_iff _ _).mp hv⟩
    · rw [if_neg hv] at h
      have hn : r.Name ∉ w.visited.keys := fun hm => hv ((GoMap.contains_iff _ _).mpr hm)
      have hloop := foldlM_option_rel _ VisitRel visitRel_refl visitRel_trans (sel r) (by
        intro s i s' _ hs
        cases hg : GetRPM c repo i with
        | ok dep =>
          rw [hg] at hs
          exact (ih dep _ _ hs).1
        | error e =>
          rw [hg] at hs
          simp only [Option.some.injEq] at hs
          subst hs
          exact visitRel_refl s) _ _ h
      refine ⟨visitRel_trans _ _ _ (visitRel_mark w r.Name hn) hloop, ?_⟩
      exact hloop.1 _ ((GoMap.mem_keys_set _ _ _ _).mpr (Or.inl rfl))

/-! ## Enough fuel -/

theorem getRPM_mem (c : Redis) (repo : Repo) (i : String) (dep : RPM)
    (h : GetRPM c repo i = .ok dep) : dep.Name ∈ c.map (fun e => e.2.Name) := by
  unfold GetRPM getRPMRedis at h
  split at h
  · rename_i e he
    simp only [Except.ok.injEq] at h
    subst h
    exact List.mem_map.mpr ⟨e, List.mem_of_find?_eq_some he, rfl⟩
  · simp at h

theorem unvisited_le_length (c : Redis) (v : GoMap Bool) : unvisited c v ≤ c.length := by
  unfold unvisited
  calc _ ≤ (c.map (fun e => e.2.Name)).toFinset.card := Finset.card_filter_le _ _
    _ ≤ (c.map (fun e => e.2.Name)).length := List.toFinset_card_le _
    _ = c.length := List.length_map _ _

theorem unvisited_mono (c : Redis) (v v' : GoMap Bool) (h : ∀ n ∈ v.keys, n ∈ v'.keys) :
    unvisited c v' ≤ unvisited c v := by
  unfold unvisited
  apply Finset.card_le_card
  intro n hn
  simp only [Finset.mem_filter] at hn ⊢
  exact ⟨hn.1, fun hv => hn.2 (h n hv)⟩

theorem unvisited_mark (c : Redis) (v : GoMap Bool) (n : String)
    (hc : n ∈ c.map (fun e => e.2.Name)) (hn : n ∉ v.keys) :
    unvisited c (v.set n true) + 1 ≤ unvisited c v := by
  unfold unvisited
  apply Finset.card_lt_card
  rw [Finset.ssubset_iff_of_subset]
  · refine ⟨n, ?_, ?_⟩
    · simp only [Finset.mem_filter, List.mem_toFinset]
      exact ⟨hc, hn⟩
    · simp only [Finset.mem_filter, not_and, not_not]
      intro _
      exact (GoMap.mem_keys_set _ _ _ _).mpr (Or.inl rfl)
  · intro x hx
    simp only [Finset.mem_filter] at hx ⊢
    exact ⟨hx.1, fun hv => hx.2 ((GoMap.mem_keys_set _ _ _ _).mpr (Or.inr hv))⟩

/-- The loop of a walk returns when the recursive calls have fuel for every
package of the store that is not yet visited. -/
theorem walk_loop_total (sel : RPM → List String) (add : RPMDepInfo → String → RPMDepInfo)
    (c : Redis) (repo : Repo) (fuel : Nat)
    (ih : ∀ (r : RPM) (w : Walk), r.Name ∈ c.map (fun e => e.2.Name) →
      unvisited c w.visited + 1 ≤ fuel → ∃ w', walk sel add fuel c r repo w = some w')
    (l : List String) (w : Walk) (hw : unvisited c w.visited + 1 ≤ fuel) :
    ∃ w', l.foldlM
        (fun (w : Walk) (i : String) =>
          match GetRPM c repo i with
          | .ok dep => walk sel add fuel c dep repo { w with rpmDep := add w.rpmDep i }
          | .error _ => some { w with rpmDep := add w.rpmDep i }) w = some w' := by
  obtain ⟨w', h, _⟩ := foldlM_option_total
    (fun (w : Walk) (i : String) =>
      match GetRPM c repo i with
      | .ok dep => walk sel add fuel c dep repo { w with rpmDep := add w.rpmDep i }
      | .error _ => some { w with rpmDep := add w.rpmDep i })
    (fun s => unvisited c s.visited + 1 ≤ fuel) l (by
    intro s i _ hs
    beta_reduce
    cases hg : GetRPM c repo i with
    | ok dep =>
      obtain ⟨s', hs'⟩ := ih dep { s with rpmDep := add s.rpmDep i } (getRPM_mem c repo i dep hg) hs
      refine ⟨s', hs', ?_⟩
      have hrel := (walk_visitRel sel add c repo fuel dep _ _ hs').1.1
      exact le_trans (Nat.succ_le_succ (unvisited_mono c _ _ hrel)) hs
    | error e => exact ⟨_, rfl, hs⟩) w hw
  exact ⟨w', h⟩

theorem walk_total_stored (sel : RPM → List String) (add : RPMDepInfo → String → RPMDepInfo)
    (c : Redis) (repo : Repo) (fuel : Nat) :
    ∀ (r : RPM) (w : Walk), r.Name ∈ c.map (fun e => e.2.Name) →
      unvisited c w.visited + 1 ≤ fuel → ∃ w', walk sel add fuel c r repo w = some w' := by
  induction fuel with
  | zero => intro r w _ h; omega
  | succ n ih =>
    intro r w hr hw
    rw [walk]
    by_cases hv : w.visited.contains r.Name = true
    · rw [if_pos hv]; exact ⟨w, rfl⟩
    · rw [if_neg hv]
      have hn : r.Name ∉ w.visited.keys := fun hm => hv ((GoMap.contains_iff _ _).mpr hm)
      apply walk_loop_total sel add c repo n ih
      have := unvisited_mark c w.visited r.Name hr hn
      show unvisited c (w.visited.set r.Name true) + 1 ≤ n
      omega

/-- A walk from any package returns once the fuel exceeds the size of the
store by two. -/
theorem walk_total (sel : RPM → List String) (add : RPMDepInfo → String → RPMDepInfo)
    (c : Redis) (repo : Repo) (r : RPM) (w : Walk) (fuel : Nat) (hf : c.length + 2 ≤ fuel) :
    ∃ w', walk sel add fuel c r repo w = some w' := by
  obtain ⟨n, rfl⟩ : ∃ n, fuel = n + 1 := ⟨fuel - 1, by omega⟩
  rw [walk]
  by_cases hv : w.visited.contains r.Name = true
  · rw [if_pos hv]; exact ⟨w, rfl⟩
  · rw [if_neg hv]
    apply walk_loop_total sel add c repo n (walk_total_stored sel add c repo n)
    have := unvisited_le_length c (w.visited.set r.Name true)
    show unvisited c (w.visited.set r.Name true) + 1 ≤ n
    omega


/-! ## Termination of the recursive walks -/

theorem walk_terminates_once (sel : RPM → List String) (add : RPMDepInfo → String → RPMDepInfo)
    (c : Redis) (repo : Repo) (r : RPM) (w : Walk) :
    ∃ w', (∀ extra, walk sel add (c.length + 2 + extra) c r repo w = some w') ∧
      VisitRel w w' := by
  obtain ⟨w', h⟩ := walk_total sel add c repo r w (c.length + 2) le_rfl
  refine ⟨w', fun extra => walk_mono sel add c repo r w w' _ _ (Nat.le_add_right _ _) h, ?_⟩
  exact (walk_visitRel sel add c repo _ r w w' h).1

/-- C1: over every store (finite by construction, cycles and diamonds allowed),
for every package `r` and every initial `visited` map, `RecursiveRequires` and
`RecursiveProvides` return: with fuel `c.length + 2` or more they give one and
the same result.  The names `t` for which the body past the visited check ran
during the call hold no name twice, and none that was visited at the start. -/
theorem recursive_walks_terminate_visit_once (c : Redis) (repo : Repo) (r : RPM) (w : Walk) :
    (∃ w', (∀ extra, RecursiveRequires (c.length + 2 + extra) c r repo w = some w') ∧
        ∃ t, w'.entered = w.entered ++ t ∧ t.Nodup ∧ ∀ n ∈ t, n ∉ w.visited.keys) ∧
    (∃ w', (∀ extra, RecursiveProvides (c.length + 2 + extra) c r repo w = some w') ∧
        ∃ t, w'.entered = w.entered ++ t ∧ t.Nodup ∧ ∀ n ∈ t, n ∉ w.visited.keys) := by
  constructor
  · obtain ⟨w', h, _, t, ht, hn, hp⟩ := walk_terminates_once RPM.Requires addRequires c repo r w
    exact ⟨w', fun extra => (RecursiveRequires_eq_walk _ c r repo w).trans (h extra),
      t, ht, hn, fun n hm => (hp n hm).1⟩
  · obtain ⟨w', h, _, t, ht, hn, hp⟩ := walk_terminates_once RPM.Provides addProvides c repo r w
    exact ⟨w', fun extra => (RecursiveProvides_eq_walk _ c r repo w).trans (h extra),
      t, ht, hn, fun n hm => (hp n hm).1⟩


/-! ## What a walk gathers -/

section Gather

variable (sel : RPM → List String) (add : RPMDepInfo → String → RPMDepInfo)
  (keysOf : RPMDepInfo → List String)
  (hadd : ∀ d i x, x ∈ keysOf (add d i) ↔ x = i ∨ x ∈ keysOf d)
  (c : Redis) (repo : Repo)

theorem reach_trans {sel : RPM → List String} {c : Redis} {repo : Repo} {p q s : RPM}
    (h1 : Reach sel c repo p q) (h2 : Reach sel c repo q s) : Reach sel c repo p s := by
  induction h2 with
  | refl => exact h1
  | step q' s' i _ hi hg ih => exact Reach.step p q' s' i ih hi hg

theorem sound_refl (r : RPM) (w : Walk) : Sound sel keysOf c repo r w w :=
  fun _ hx => Or.inl hx

theorem sound_trans (r : RPM) (a b d : Walk) (h1 : Sound sel keysOf c repo r a b)
    (h2 : Sound sel keysOf c repo r b d) : Sound sel keysOf c repo r a d := by
  intro x hx
  rcases h2 x hx with h | h
  · exact h1 x h
  · exact Or.inr h

include hadd in
theorem walk_sound (fuel : Nat) :
    ∀ (r : RPM) (w w' : Walk), walk sel add fuel c r repo w = some w' →
      Sound sel keysOf c repo r w w' := by
  induction fuel with
  | zero => intro r w w' h; simp [walk] at h
  | succ n ih =>
    intro r w w' h
    rw [walk] at h
    by_cases hv : w.visited.contains r.Name = true
    · rw [if_pos hv] at h
      simp only [Option.some.injEq] at h
      subst h
      exact sound_refl sel keysOf c repo r w
    · rw [if_neg hv] at h
      have hloop := foldlM_option_rel _ (Sound sel keysOf c repo r)
        (sound_refl sel keysOf c repo r) (sound_trans sel keysOf c repo r) (sel r) ?_ _ _ h
      · exact hloop
      intro s i s' hi hs
      beta_reduce at hs
      have hstep : Sound sel keysOf c repo r s { s with rpmDep := add s.rpmDep i } := by
        intro x hx
        rcases (hadd _ _ _).mp hx with rfl | hx
        · exact Or.inr ⟨r, Reach.refl r, hi⟩
        · exact Or.inl hx
      cases hg : GetRPM c repo i with
      | ok dep =>
        rw [hg] at hs
        refine sound_trans sel keysOf c repo r _ _ _ hstep ?_
        intro x hx
        rcases ih dep _ _ hs x hx with h' | ⟨q, hq, hxq⟩
        · exact Or.inl h'
        · exact Or.inr ⟨q, reach_trans (Reach.step r r dep i (Reach.refl r) hi hg) hq, hxq⟩
      | error e =>
        rw [hg] at hs
        simp only [Option.some.injEq] at hs
        subst hs
        exact hstep

theorem grow_refl (w : Walk) : Grow keysOf w w := ⟨fun _ h => h, fun _ h => h⟩

theorem grow_trans (a b d : Walk) (h1 : Grow keysOf a b) (h2 : Grow keysOf b d) :
    Grow keysOf a d :=
  ⟨fun n h => h2.1 n (h1.1 n h), fun x h => h2.2 x (h1.2 x h)⟩

theorem done_mono (r0 : RPM) (n : String) (w w' : Walk) (hg : Grow keysOf w w')
    (h : Done sel keysOf c repo r0 n w) : Done sel keysOf c repo r0 n w' := by
  intro p hp hn i hi
  obtain ⟨h1, h2⟩ := h p hp hn i hi
  exact ⟨hg.2 i h1, fun q hq => hg.1 _ (h2 q hq)⟩

theorem compl_refl (r0 : RPM) (w : Walk) : Compl sel keysOf c repo r0 w w :=
  ⟨grow_refl keysOf w, fun _ h hn => absurd h hn⟩

theorem compl_trans (r0 : RPM) (a b d : Walk) (h1 : Compl sel keysOf c repo r0 a b)
    (h2 : Compl sel keysOf c repo r0 b d) : Compl sel keysOf c repo r0 a d := by
  refine ⟨grow_trans keysOf a b d h1.1 h2.1, ?_⟩
  intro n hn hna
  by_cases hb : n ∈ b.visited.keys
  · exact done_mono sel keysOf c repo r0 n b d h2.1 (h1.2 n hb hna)
  · exact h2.2 n hn hb

include hadd in
theorem walk_complete (r0 : RPM)
    (hU : ∀ p q, InUniverse c repo r0 p → InUniverse c repo r0 q → p.Name = q.Name → p = q)
    (fuel : Nat) :
    ∀ (r : RPM) (w w' : Walk), InUniverse c repo r0 r →
      walk sel add fuel c r repo w = some w' →
      Compl sel keysOf c repo r0 w w' ∧ r.Name ∈ w'.visited.keys := by
  induction fuel with
  | zero => intro r w w' _ h; simp [walk] at h
  | succ n ih =>
    intro r w w' hr h
    rw [walk] at h
    by_cases hv : w.visited.contains r.Name = true
    · rw [if_pos hv] at h
      simp only [Option.some.injEq] at h
      subst h
      exact ⟨compl_refl sel keysOf c repo r0 w, (GoMap.contains_iff _ _).mp hv⟩
    · rw [if_neg hv] at h
      have hadd1 : ∀ (s : Walk) (i : String),
          Compl sel keysOf c repo r0 s { s with rpmDep := add s.rpmDep i } := fun s i =>
        ⟨⟨fun _ hm => hm, fun x hx => (hadd _ _ _).mpr (Or.inr hx)⟩, fun _ hm hn => absurd hm hn⟩
      obtain ⟨hloop, heach⟩ := foldlM_option_each _ (Compl sel keysOf c repo r0)
        (fun i s => i ∈ keysOf s.rpmDep ∧ ∀ q, GetRPM c repo i = .ok q → q.Name ∈ s.visited.keys)
        (compl_refl sel keysOf c repo r0) (compl_trans sel keysOf c repo r0)
        (fun i s s' hc hq => ⟨hc.1.2 i hq.1, fun q hg => hc.1.1 _ (hq.2 q hg)⟩) (sel r)
        (by
          intro s i s' _ hs
          cases hg : GetRPM c repo i with
          | ok dep =>
            rw [hg] at hs
            obtain ⟨hc, hd⟩ := ih dep _ _ (Or.inr ⟨i, hg⟩) hs
            refine ⟨compl_trans sel keysOf c repo r0 _ _ _ (hadd1 s i) hc, ?_, ?_⟩
            · exact hc.1.2 i ((hadd _ _ _).mpr (Or.inl rfl))
            · intro q hq
              rw [hg] at hq
              rw [← Except.ok.inj hq]
              exact hd
          | error e =>
            rw [hg] at hs
            simp only [Option.some.injEq] at hs
            subst hs
            exact ⟨hadd1 s i, (hadd _ _ _).mpr (Or.inl rfl), fun q hq => by rw [hg] at hq; cases hq⟩) _ _ h
      have hmark : ∀ x, x ∈ (w.visited.set r.Name true).keys ↔ x = r.Name ∨ x ∈ w.visited.keys :=
        GoMap.mem_keys_set _ _ _
      refine ⟨⟨⟨fun x hx => hloop.1.1 x ((hmark x).mpr (Or.inr hx)), fun x hx => hloop.1.2 x hx⟩,
        ?_⟩, hloop.1.1 _ ((hmark _).mpr (Or.inl rfl))⟩
      intro x hx hxw
      by_cases hx1 : x ∈ (w.visited.set r.Name true).keys
      · rcases (hmark x).mp hx1 with rfl | hx1
        · intro p hp hpn i hi
          have hpr : p = r := hU p r hp hr hpn
          subst hpr
          exact heach i hi
        · exact absurd hx1 hxw
      · exact hloop.2 x hx hx1

end Gather


/-! ## The transitive requires -/

theorem pkgKey_injective (repo : Repo) (a b : String) (h : pkgKey repo a = pkgKey repo b) :
    a = b := by
  unfold pkgKey at h
  have h' := congrArg String.data h
  simp only [String.data_append] at h'
  exact String.ext (List.append_cancel_left h')

/-- A store whose every record lies under the key of its own name answers a
lookup with a package of the name asked for. -/
theorem nameConsistent_of_all (c : Redis) (repo : Repo)
    (h : ∀ e ∈ c, e.1 = pkgKey repo e.2.Name) : NameConsistent c repo := by
  intro i q hq
  unfold GetRPM getRPMRedis at hq
  split at hq
  · rename_i e he
    simp only [Except.ok.injEq] at hq
    subst hq
    have h1 := h e (List.mem_of_find?_eq_some he)
    have h2 := List.find?_some he
    simp only [decide_eq_true_eq] at h2
    exact pkgKey_injective repo _ _ (h1.symm.trans h2)
  · cases hq

theorem universe_unique (c : Redis) (repo : Repo) (hname : NameConsistent c repo) (r : RPM)
    (hr : ∀ q, GetRPM c repo r.Name = .ok q → q = r) :
    ∀ p q, InUniverse c repo r p → InUniverse c repo r q → p.Name = q.Name → p = q := by
  have key : ∀ p, (∃ i, GetRPM c repo i = .ok p) → p.Name = r.Name → p = r := by
    rintro p ⟨i, hi⟩ hn
    have := hname i p hi
    rw [← this, hn] at hi
    exact hr p hi
  intro p q hp hq hn
  rcases hp with rfl | hp
  · rcases hq with rfl | hq
    · rfl
    · exact (key q hq hn.symm).symm
  · rcases hq with rfl | hq
    · exact key p hp hn
    · obtain ⟨i, hi⟩ := hp
      obtain ⟨j, hj⟩ := hq
      have h1 := hname i p hi
      have h2 := hname j q hj
      rw [← h1, hn, h2] at hi
      rw [hi] at hj
      exact Except.ok.inj hj

/-- From an empty `visited` map a walk gathers exactly the strings declared by
the packages reachable from its start, when names identify packages. -/
theorem walk_gathers (sel : RPM → List String) (add : RPMDepInfo → String → RPMDepInfo)
    (keysOf : RPMDepInfo → List String)
    (hadd : ∀ d i x, x ∈ keysOf (add d i) ↔ x = i ∨ x ∈ keysOf d)
    (c : Redis) (repo : Repo) (hname : NameConsistent c repo) (r : RPM)
    (hr : ∀ q, GetRPM c repo r.Name = .ok q → q = r) (d : RPMDepInfo) (fuel : Nat) (w' : Walk)
    (h : walk sel add fuel c r repo ⟨d, GoMap.empty, []⟩ = some w') (s : String) :
    s ∈ keysOf w'.rpmDep ↔ s ∈ keysOf d ∨ ∃ q, Reach sel c repo r q ∧ s ∈ sel q := by
  constructor
  · exact walk_sound sel add keysOf hadd c repo fuel r _ w' h s
  · have hU := universe_unique c repo hname r hr
    obtain ⟨hc, hrv⟩ := walk_complete sel add keysOf hadd c repo r hU fuel r _ w' (Or.inl rfl) h
    have hreach : ∀ q, Reach sel c repo r q →
        InUniverse c repo r q ∧ q.Name ∈ w'.visited.keys := by
      intro q hq
      induction hq with
      | refl => exact ⟨Or.inl rfl, hrv⟩
      | step q' s' i _ hi hg ih =>
        obtain ⟨hu, hv⟩ := ih
        have hdone := hc.2 q'.Name hv (by simp [GoMap.keys_empty])
        exact ⟨Or.inr ⟨i, hg⟩, (hdone q' hu rfl i hi).2 s' hg⟩
    rintro (hs | ⟨q, hq, hs⟩)
    · exact hc.1.2 s hs
    · exact (hc.2 q.Name (hreach q hq).2 (by simp [GoMap.keys_empty]) q (hreach q hq).1 rfl
        s hs).1

/-- C2 as the spec has it fails: started from a package that is not the one
the store keeps under the same name, the walk never follows the stored one. -/
theorem requires_closure_law_counterexample :
    NameConsistent shadowStore binRepo ∧
      ¬ RequiresClosureLaw shadowStore binRepo shadowStart emptyDep := by
  refine ⟨nameConsistent_of_all _ _ (by decide), ?_⟩
  rintro ⟨w', hfuel, hiff⟩
  have hrun : (RecursiveRequires (shadowStore.length + 2 + 0) shadowStore shadowStart binRepo
      ⟨emptyDep, GoMap.empty, []⟩).map (fun w => w.rpmDep.Requires.keys) = some ["b", "a"] := by
    decide
  rw [hfuel 0] at hrun
  simp only [Option.map_some', Option.some.injEq] at hrun
  have hreach : Reach RPM.Requires shadowStore binRepo shadowStart (mkRPM "a" ["c"] []) :=
    Reach.step _ (mkRPM "b" ["a"] []) _ "a"
      (Reach.step _ shadowStart _ "b" (Reach.refl _) (by decide) rfl) (by decide) rfl
  have hc := (hiff "c").mpr (Or.inr ⟨_, hreach, by decide⟩)
  rw [hrun] at hc
  revert hc
  decide

/-- C2, amended: over a store in which looking up a name returns a package with
that name, from a package `r` that is the one the store returns for its own
name (or whose name the store does not know), for every closure,
`RecursiveRequires` with an empty `visited` map returns and leaves the
closure's Requires equal to what it was united with the declared requires of
every package reachable from `r`; a string that does not resolve is added and
not followed. -/
theorem requires_closure_law (c : Redis) (repo : Repo) (hname : NameConsistent c repo)
    (r : RPM) (hr : ∀ q, GetRPM c repo r.Name = .ok q → q = r) (d : RPMDepInfo) :
    RequiresClosureLaw c repo r d := by
  obtain ⟨w', h, _⟩ := walk_terminates_once RPM.Requires addRequires c repo r ⟨d, GoMap.empty, []⟩
  refine ⟨w', fun extra => (RecursiveRequires_eq_walk _ c r repo _).trans (h extra), ?_⟩
  intro s
  exact walk_gathers RPM.Requires addRequires (fun d => d.Requires.keys)
    (fun d i x => GoMap.mem_keys_set _ _ _ _) c repo hname r hr d _ w' (h 0) s

/-- The amended C2 at the store with a cycle, started from its package `a`:
the store answers with the names asked for, `a` is what it returns for `a`, and
the law holds. -/
theorem requires_closure_law_witness :
    NameConsistent cycleStore binRepo ∧
    GetRPM cycleStore binRepo "a" = .ok (mkRPM "a" ["b", "zlib"] ["a"]) ∧
    RequiresClosureLaw cycleStore binRepo (mkRPM "a" ["b", "zlib"] ["a"]) emptyDep :=
  ⟨nameConsistent_of_all _ _ (by decide), rfl,
    requires_closure_law cycleStore binRepo (nameConsistent_of_all _ _ (by decide))
      (mkRPM "a" ["b", "zlib"] ["a"])
      (fun q hq => by
        have h : GetRPM cycleStore binRepo (mkRPM "a" ["b", "zlib"] ["a"]).Name
            = .ok (mkRPM "a" ["b", "zlib"] ["a"]) := rfl
        rw [h] at hq
        exact (Except.ok.inj hq).symm)
      emptyDep⟩


/-! ## The missing list -/

theorem missingLoop_foldl (p : String → Bool) (l : List String) (a b : List String) :
    l.foldl (fun (acc : List String × List String) (req : String) =>
        (if p req then acc.1 else acc.1 ++ [req], acc.2 ++ ["Req:  " ++ req])) (a, b)
      = (a ++ l.filter (fun req => !p req), b ++ l.map (fun req => "Req:  " ++ req)) := by
  induction l generalizing a b with
  | nil => simp
  | cons x rest ih =>
    rw [List.foldl_cons, ih]
    by_cases hx : p x = true
    · simp [hx]
    · simp [hx]

theorem missingLoop_fst (d : RPMDepInfo) :
    (missingLoop d).1 = d.Requires.keys.filter (fun req => !d.Provides.contains req) := by
  unfold missingLoop
  rw [missingLoop_foldl (fun req => d.Provides.contains req)]
  simp

/-- The missing list of a closure holds no string twice, and holds exactly the
keys of `Requires` that are no key of `Provides`. -/
theorem missingLoop_spec (d : RPMDepInfo) :
    (missingLoop d).1.Nodup ∧
      ∀ s, s ∈ (missingLoop d).1 ↔ s ∈ d.Requires.keys ∧ s ∉ d.Provides.keys := by
  rw [missingLoop_fst]
  refine ⟨d.Requires.keys_nodup.filter _, fun s => ?_⟩
  rw [List.mem_filter]
  have := GoMap.contains_iff d.Provides s
  constructor
  · rintro ⟨h1, h2⟩
    refine ⟨h1, fun hm => ?_⟩
    rw [this.mpr hm] at h2
    simp at h2
  · rintro ⟨h1, h2⟩
    refine ⟨h1, ?_⟩
    cases hc : d.Provides.contains s with
    | true => exact absurd (this.mp hc) h2
    | false => rfl

theorem find?_setEntry_self {α : Type} (k : String) (v : α) (l : List (String × α)) :
    (setEntry k v l).find? (fun e => e.1 = k) = some (k, v) := by
  induction l with
  | nil => simp [setEntry]
  | cons e rest ih =>
    by_cases hk : e.1 = k
    · simp [setEntry, hk]
    · simp [setEntry, hk, ih]

theorem GoMap.get?_set_self {α : Type} (m : GoMap α) (k : String) (v : α) :
    (m.set k v).get? k = some v := by
  unfold GoMap.get? GoMap.set
  simp [find?_setEntry_self]

/-- C3: for every closure the missing list computed by the loop holds exactly
the keys of `Requires` that are no key of `Provides`, each once.  This is so
after a binary package is added: an iteration that returns has found the
package `r`, leaves under its key the closure `d` that adding `r` has produced,
and its last line of output is the MISSING line of the missing list of `d`. -/
theorem missing_is_requires_minus_provides :
    (∀ d : RPMDepInfo, (missingLoop d).1.Nodup ∧
      ∀ s, s ∈ (missingLoop d).1 ↔ s ∈ d.Requires.keys ∧ s ∉ d.Provides.keys) ∧
    (∀ (fuel : Nat) (c : Redis) (binaryRPMs sourceRPMs : Repo) (st st' : RunState)
      (pkg : String), resolveStep fuel c binaryRPMs sourceRPMs st pkg = .ok st' →
      ∃ r d d0 printed, GetRPM c binaryRPMs pkg = .ok r ∧
        addBinary fuel c binaryRPMs d0 r printed = .ok d ∧
        st'.depInfo.get? (TrimSuffix r.SRPMName (srpmSuffix r)) = some d ∧
        st'.out.getLast? =
          some (missingLine (TrimSuffix r.SRPMName (srpmSuffix r)) (missingLoop d).1)) := by
  refine ⟨missingLoop_spec, ?_⟩
  intro fuel c binaryRPMs sourceRPMs st st' pkg h
  unfold resolveStep at h
  split at h
  · cases h
  · rename_i r hr
    simp only at h
    split at h
    · cases h
    · rename_i st1 _
      split at h
      · cases h
      · rename_i d0 _
        split at h
        · cases h
        · rename_i d hd
          simp only [Except.ok.injEq] at h
          subst h
          exact ⟨r, d, d0, st1.out, hr, hd, GoMap.get?_set_self _ _ _, by simp⟩

/-- C3 at scenario 1: the iteration for `B` returns, and what the theorem says
of a returning iteration holds of it. -/
theorem missing_is_requires_minus_provides_witness :
    ∃ st', resolveStep 5 scenarioStore binRepo srcRepo ⟨GoMap.empty, []⟩ "B" = .ok st' ∧
      ∃ r d d0 printed, GetRPM scenarioStore binRepo "B" = .ok r ∧
        addBinary 5 scenarioStore binRepo d0 r printed = .ok d ∧
        st'.depInfo.get? (TrimSuffix r.SRPMName (srpmSuffix r)) = some d ∧
        st'.out.getLast? =
          some (missingLine (TrimSuffix r.SRPMName (srpmSuffix r)) (missingLoop d).1) := by
  cases h : resolveStep 5 scenarioStore binRepo srcRepo ⟨GoMap.empty, []⟩ "B" with
  | error f =>
    have hok : (resolveStep 5 scenarioStore binRepo srcRepo ⟨GoMap.empty, []⟩ "B").toBool
        = true := by decide
    rw [h] at hok
    cases hok
  | ok st' => exact ⟨st', rfl, missing_is_requires_minus_provides.2 _ _ _ _ _ _ _ h⟩


/-! ## Adding a binary package -/

/-- A walk leaves alone whatever its write leaves alone. -/
theorem walk_keeps {β : Type} (sel : RPM → List String)
    (add : RPMDepInfo → String → RPMDepInfo) (proj : RPMDepInfo → β)
    (hproj : ∀ d i, proj (add d i) = proj d) (c : Redis) (repo : Repo) (fuel : Nat) :
    ∀ (r : RPM) (w w' : Walk), walk sel add fuel c r repo w = some w' →
      proj w'.rpmDep = proj w.rpmDep := by
  induction fuel with
  | zero => intro r w w' h; simp [walk] at h
  | succ n ih =>
    intro r w w' h
    rw [walk] at h
    by_cases hv : w.visited.contains r.Name = true
    · rw [if_pos hv] at h
      simp only [Option.some.injEq] at h
      subst h
      rfl
    · rw [if_neg hv] at h
      have hloop := foldlM_option_rel _ (fun a b : Walk => proj b.rpmDep = proj a.rpmDep)
        (fun _ => rfl) (fun _ _ _ h1 h2 => h2.trans h1) (sel r) ?_ _ _ h
      · exact hloop
      intro s i s' _ hs
      cases hg : GetRPM c repo i with
      | ok dep =>
        rw [hg] at hs
        exact (ih dep _ _ hs).trans (hproj _ _)
      | error e =>
        rw [hg] at hs
        simp only [Option.some.injEq] at hs
        subst hs
        exact hproj _ _

/-- A walk takes no key out of the set it writes to. -/
theorem walk_grows (sel : RPM → List String) (add : RPMDepInfo → String → RPMDepInfo)
    (keysOf : RPMDepInfo → List String)
    (hadd : ∀ d i x, x ∈ keysOf (add d i) ↔ x = i ∨ x ∈ keysOf d)
    (c : Redis) (repo : Repo) (fuel : Nat) :
    ∀ (r : RPM) (w w' : Walk), walk sel add fuel c r repo w = some w' →
      ∀ x ∈ keysOf w.rpmDep, x ∈ keysOf w'.rpmDep := by
  induction fuel with
  | zero => intro r w w' h; simp [walk] at h
  | succ n ih =>
    intro r w w' h
    rw [walk] at h
    by_cases hv : w.visited.contains r.Name = true
    · rw [if_pos hv] at h
      simp only [Option.some.injEq] at h
      subst h
      exact fun _ hx => hx
    · rw [if_neg hv] at h
      have hloop := foldlM_option_rel _
        (fun a b : Walk => ∀ x ∈ keysOf a.rpmDep, x ∈ keysOf b.rpmDep)
        (fun _ _ hx => hx) (fun _ _ _ h1 h2 x hx => h2 x (h1 x hx)) (sel r) ?_ _ _ h
      · exact hloop
      intro s i s' _ hs x hx
      have hx1 : x ∈ keysOf (add s.rpmDep i) := (hadd _ _ _).mpr (Or.inr hx)
      cases hg : GetRPM c repo i with
      | ok dep =>
        rw [hg] at hs
        exact ih dep _ _ hs x hx1
      | error e =>
        rw [hg] at hs
        simp only [Option.some.injEq] at hs
        subst hs
        exact hx1

/-- The call of `RecursiveRequires` on a non-nil package returns a closure with
the same Provides and RPMs and no fewer Requires. -/
theorem callRecursiveRequires_ok (c : Redis) (repo : Repo) (d : RPMDepInfo) (r : RPM)
    (printed : List String) (extra : Nat) :
    ∃ d', callRecursiveRequires (c.length + 2 + extra) c d (some r) repo printed = .ok d' ∧
      (∀ s ∈ d.Requires.keys, s ∈ d'.Requires.keys) ∧ d'.Provides = d.Provides ∧
      d'.RPMs = d.RPMs ∧ d'.SRPM = d.SRPM := by
  obtain ⟨w', h, _⟩ := walk_terminates_once RPM.Requires addRequires c repo r ⟨d, GoMap.empty, []⟩
  have h0 := h extra
  refine ⟨w'.rpmDep, ?_, ?_, ?_, ?_, ?_⟩
  · simp only [callRecursiveRequires, RecursiveRequires_eq_walk, h0]
  · exact walk_grows RPM.Requires addRequires (fun d => d.Requires.keys)
      (fun d i x => GoMap.mem_keys_set _ _ _ _) c repo _ r _ w' h0
  · exact walk_keeps RPM.Requires addRequires (fun d => d.Provides) (fun _ _ => rfl) c repo _ r _
      w' h0
  · exact walk_keeps RPM.Requires addRequires (fun d => d.RPMs) (fun _ _ => rfl) c repo _ r _
      w' h0
  · exact walk_keeps RPM.Requires addRequires (fun d => d.SRPM) (fun _ _ => rfl) c repo _ r _
      w' h0

/-- The call of `RecursiveProvides` on a non-nil package returns a closure with
the same Requires and RPMs and no fewer Provides. -/
theorem callRecursiveProvides_ok (c : Redis) (repo : Repo) (d : RPMDepInfo) (r : RPM)
    (printed : List String) (extra : Nat) :
    ∃ d', callRecursiveProvides (c.length + 2 + extra) c d (some r) repo printed = .ok d' ∧
      (∀ s ∈ d.Provides.keys, s ∈ d'.Provides.keys) ∧ d'.Requires = d.Requires ∧
      d'.RPMs = d.RPMs ∧ d'.SRPM = d.SRPM := by
  obtain ⟨w', h, _⟩ := walk_terminates_once RPM.Provides addProvides c repo r ⟨d, GoMap.empty, []⟩
  have h0 := h extra
  refine ⟨w'.rpmDep, ?_, ?_, ?_, ?_, ?_⟩
  · simp only [callRecursiveProvides, RecursiveProvides_eq_walk, h0]
  · exact walk_grows RPM.Provides addProvides (fun d => d.Provides.keys)
      (fun d i x => GoMap.mem_keys_set _ _ _ _) c repo _ r _ w' h0
  · exact walk_keeps RPM.Provides addProvides (fun d => d.Requires) (fun _ _ => rfl) c repo _ r _
      w' h0
  · exact walk_keeps RPM.Provides addProvides (fun d => d.RPMs) (fun _ _ => rfl) c repo _ r _
      w' h0
  · exact walk_keeps RPM.Provides addProvides (fun d => d.SRPM) (fun _ _ => rfl) c repo _ r _
      w' h0

/-- C5: for every closure, store, repository and binary package `r`, the three
statements `AddRPM(r)`, `RecursiveRequires(r, ...)`, `RecursiveProvides(r, ...)`
return (with fuel of the store's size plus two, or more), and every key of the
closure's Requires is still a key of Requires, every key of its Provides still
a key of Provides. -/
theorem adding_never_shrinks (c : Redis) (binaryRPMs : Repo) (rpmDep : RPMDepInfo) (r : RPM)
    (printed : List String) (extra : Nat) :
    ∃ d', addBinary (c.length + 2 + extra) c binaryRPMs rpmDep r printed = .ok d' ∧
      (∀ s ∈ rpmDep.Requires.keys, s ∈ d'.Requires.keys) ∧
      (∀ s ∈ rpmDep.Provides.keys, s ∈ d'.Provides.keys) := by
  obtain ⟨d1, h1, hreq1, hprov1, _, _⟩ :=
    callRecursiveRequires_ok c binaryRPMs (AddRPM rpmDep r) r printed extra
  obtain ⟨d2, h2, hprov2, hreq2, _, _⟩ := callRecursiveProvides_ok c binaryRPMs d1 r printed extra
  refine ⟨d2, ?_, ?_, ?_⟩
  · simp only [addBinary, h1, h2]
  · intro s hs
    rw [hreq2]
    exact hreq1 s hs
  · intro s hs
    apply hprov2
    rw [hprov1]
    exact hs


/-! ## Scenario 1 -/

/-- C4 as the spec has it fails: in scenario 1 the missing list of the closure
under `src-B` is not `libbar` alone, for `libfoo` is in it too (nothing walks
the provides of `A` into the closure of `src-B`). -/
theorem scenario1_missing_counterexample :
    ¬ ∃ d, closureOf (runCheckDependencies 5 scenarioStore binRepo srcRepo bundleB) "src-B"
        = some d ∧
      (∀ s, s ∈ d.Requires.keys ↔ s = "libfoo" ∨ s = "libbar") ∧
      (∀ s, s ∈ (missingLoop d).1 ↔ s = "libbar") := by
  rintro ⟨d, hd, _, hmiss⟩
  have key : (closureOf (runCheckDependencies 5 scenarioStore binRepo srcRepo bundleB)
      "src-B").map (fun d => (missingLoop d).1) = some ["libfoo", "libbar"] := by decide
  rw [hd] at key
  simp only [Option.map_some', Option.some.injEq] at key
  have h := (hmiss "libfoo").mp (by rw [key]; decide)
  revert h
  decide

/-- C4, amended: in scenario 1, building the closure for `B` returns and leaves
one closure, under the key `src-B`; its Requires are `libfoo` and `libbar`, its
Provides are empty, and its missing list holds `libfoo` and `libbar`. -/
theorem scenario1_closure :
    closureKeys (runCheckDependencies 5 scenarioStore binRepo srcRepo bundleB) = ["src-B"] ∧
    ∃ d, closureOf (runCheckDependencies 5 scenarioStore binRepo srcRepo bundleB) "src-B"
        = some d ∧
      (∀ s, s ∈ d.Requires.keys ↔ s = "libfoo" ∨ s = "libbar") ∧
      (∀ s, s ∉ d.Provides.keys) ∧
      (∀ s, s ∈ (missingLoop d).1 ↔ s = "libfoo" ∨ s = "libbar") := by
  refine ⟨by decide, ?_⟩
  have key : (closureOf (runCheckDependencies 5 scenarioStore binRepo srcRepo bundleB)
      "src-B").map (fun d => (d.Requires.keys, d.Provides.keys, (missingLoop d).1))
      = some (["libfoo", "libbar"], [], ["libfoo", "libbar"]) := by decide
  cases h : closureOf (runCheckDependencies 5 scenarioStore binRepo srcRepo bundleB) "src-B" with
  | none => rw [h] at key; cases key
  | some d =>
    rw [h] at key
    simp only [Option.map_some', Option.some.injEq, Prod.mk.injEq] at key
    obtain ⟨k1, k2, k3⟩ := key
    refine ⟨d, rfl, ?_, ?_, ?_⟩
    · intro s; rw [k1]; simp
    · intro s; rw [k2]; simp
    · intro s; rw [k3]; simp

/-! ## A source package that cannot be found -/

/-- C9, the code at a failing input: `B` is in the binary repository and its
source package `src-B` is not in the source repository.  The run prints the
failed lookup and then faults on the nil source package, whichever of `A` and
`B` comes first; it does not go on to the remaining bundle packages. -/
theorem missing_source_package_panics :
    runCheckDependencies 5 orphanStore binRepo srcRepo
        ((GoMap.empty.set "B" true).set "A" true)
      = .error (.nilDereference ["src-B", "DANG:  redigo: nil returned"]) ∧
    runCheckDependencies 5 orphanStore binRepo srcRepo
        ((GoMap.empty.set "A" true).set "B" true)
      = .error (.nilDereference
          ["src-A", "MISSING: src-A: ", "src-B", "DANG:  redigo: nil returned"]) :=
  ⟨rfl, rfl⟩


/-! ## The job set of `getAllManifestFiles` -/

theorem mem_setEntry {α : Type} (k : String) (v : α) (l : List (String × α)) (e : String × α)
    (h : e ∈ setEntry k v l) : e = (k, v) ∨ e ∈ l := by
  induction l with
  | nil =>
    simp only [setEntry, List.mem_singleton] at h
    exact Or.inl h
  | cons x rest ih =>
    by_cases hk : x.1 = k
    · simp only [setEntry, if_pos hk, List.mem_cons] at h ⊢
      tauto
    · simp only [setEntry, if_neg hk, List.mem_cons] at h ⊢
      rcases h with h | h
      · exact Or.inr (Or.inl h)
      · rcases ih h with h' | h'
        · exact Or.inl h'
        · exact Or.inr (Or.inr h')

theorem GoMap.mem_entries_set {α : Type} (m : GoMap α) (k : String) (v : α) (e : String × α)
    (h : e ∈ (m.set k v).entries) : e = (k, v) ∨ e ∈ m.entries :=
  mem_setEntry k v m.entries e h

/-- A key of a map has a value, and the pair is an entry. -/
theorem GoMap.get?_of_mem_keys {α : Type} (m : GoMap α) (k : String) (h : k ∈ m.keys) :
    ∃ v, m.get? k = some v ∧ (k, v) ∈ m.entries := by
  unfold GoMap.keys at h
  obtain ⟨e, he, rfl⟩ := List.mem_map.mp h
  unfold GoMap.get?
  cases hf : m.entries.find? (fun x => x.1 = e.1) with
  | none =>
    have := List.find?_eq_none.mp hf e he
    simp at this
  | some x =>
    have h1 := List.find?_some hf
    simp only [decide_eq_true_eq] at h1
    refine ⟨x.2, rfl, ?_⟩
    rw [← h1]
    exact List.mem_of_find?_eq_some hf

/-- The loop over the file entries of one manifest: every entry of the result
was there before or is the job of a present file entry, no key is lost, and
every present file entry has its key. -/
theorem collectFiles_spec (mInfo : ManifestInfo) (files : List File) :
    ∀ dl : GoMap finfo,
      (∀ e ∈ (collectFiles mInfo dl files).entries, e ∈ dl.entries ∨
        ∃ f ∈ files, f.Present = true ∧ e = (fileOut mInfo f, jobOf mInfo f)) ∧
      (∀ k ∈ dl.keys, k ∈ (collectFiles mInfo dl files).keys) ∧
      (∀ f ∈ files, f.Present = true → fileOut mInfo f ∈ (collectFiles mInfo dl files).keys) := by
  induction files with
  | nil =>
    intro dl
    exact ⟨fun e he => Or.inl he, fun k hk => hk, fun f hf => by simp at hf⟩
  | cons f rest ih =>
    intro dl
    unfold collectFiles
    rw [List.foldl_cons]
    by_cases hp : f.Present = true
    · obtain ⟨h1, h2, h3⟩ := ih (dl.set (fileOut mInfo f) (jobOf mInfo f))
      simp only [hp, Bool.not_true, Bool.false_eq_true, if_false]
      refine ⟨?_, ?_, ?_⟩
      · intro e he
        rcases h1 e he with h | ⟨g, hg, hgp, hge⟩
        · rcases GoMap.mem_entries_set _ _ _ _ h with h' | h'
          · exact Or.inr ⟨f, List.mem_cons_self _ _, hp, h'⟩
          · exact Or.inl h'
        · exact Or.inr ⟨g, List.mem_cons_of_mem _ hg, hgp, hge⟩
      · intro k hk
        exact h2 k ((GoMap.mem_keys_set _ _ _ _).mpr (Or.inr hk))
      · intro g hg hgp
        rcases List.mem_cons.mp hg with rfl | hg
        · exact h2 _ ((GoMap.mem_keys_set _ _ _ _).mpr (Or.inl rfl))
        · exact h3 g hg hgp
    · obtain ⟨h1, h2, h3⟩ := ih dl
      simp only [hp, Bool.not_false, if_true]
      refine ⟨?_, h2, ?_⟩
      · intro e he
        rcases h1 e he with h | ⟨g, hg, hgp, hge⟩
        · exact Or.inl h
        · exact Or.inr ⟨g, List.mem_cons_of_mem _ hg, hgp, hge⟩
      · intro g hg hgp
        rcases List.mem_cons.mp hg with rfl | hg
        · exact absurd hgp hp
        · exact h3 g hg hgp

/-- The counterpart of `foldlM_option_each` for loops that may return an
error. -/
theorem foldlM_except_each {ε σ ι : Type} (f : σ → ι → Except ε σ) (R : σ → σ → Prop)
    (Q : ι → σ → Prop) (hr : ∀ s, R s s) (ht : ∀ a b c, R a b → R b c → R a c)
    (hQ : ∀ i s s', R s s' → Q i s → Q i s') (l : List ι)
    (hstep : ∀ s i s', i ∈ l → f s i = .ok s' → R s s' ∧ Q i s') :
    ∀ s s', l.foldlM f s = .ok s' → R s s' ∧ ∀ i ∈ l, Q i s' := by
  induction l with
  | nil =>
    intro s s' h
    simp only [List.foldlM_nil, pure, Except.pure, Except.ok.injEq] at h
    subst h
    exact ⟨hr s, by simp⟩
  | cons i rest ih =>
    intro s s' h
    simp only [List.foldlM_cons, bind, Except.bind] at h
    cases hfi : f s i with
    | error e => rw [hfi] at h; cases h
    | ok s1 =>
      rw [hfi] at h
      obtain ⟨h1, hq1⟩ := hstep s i s1 (List.mem_cons_self _ _) hfi
      obtain ⟨h2, hq2⟩ :=
        ih (fun s i s' hi => hstep s i s' (List.mem_cons_of_mem _ hi)) s1 s' h
      refine ⟨ht _ _ _ h1 h2, ?_⟩
      intro j hj
      rcases List.mem_cons.mp hj with rfl | hj
      · exact hQ _ _ _ h2 hq1
      · exact hq2 j hj

/-- The job set that `getAllManifestFiles` returns: its entries are the jobs
of the present file entries of the tree, each under its output path, and each
such file entry has its key. -/
theorem getAllManifestFiles_spec (env : Env) (mInfo : ManifestInfo) (dl : GoMap finfo)
    (h : getAllManifestFiles env mInfo = .ok dl) :
    (∀ e ∈ dl.entries, ∃ f, InTree env mInfo f ∧ e = (fileOut mInfo f, jobOf mInfo f)) ∧
    (∀ f, InTree env mInfo f → fileOut mInfo f ∈ dl.keys) := by
  unfold getAllManifestFiles at h
  cases hmom : GetMom env mInfo with
  | error e => rw [hmom] at h; cases h
  | ok mom =>
    rw [hmom] at h
    simp only at h
    obtain ⟨⟨hR1, _⟩, hQ⟩ := foldlM_except_each (collectComponent env mInfo)
      (fun a b : GoMap finfo =>
        (∀ e ∈ b.entries, e ∈ a.entries ∨
          ∃ f, InTree env mInfo f ∧ e = (fileOut mInfo f, jobOf mInfo f)) ∧
        ∀ k ∈ a.keys, k ∈ b.keys)
      (fun mf s => ∀ m, env.parseManifestFile (manifestOut mInfo mf) = .ok m →
        ∀ f ∈ m.Files, f.Present = true → fileOut mInfo f ∈ s.keys)
      (fun s => ⟨fun e he => Or.inl he, fun k hk => hk⟩)
      (fun a b d h1 h2 => ⟨fun e he => (h2.1 e he).elim (fun h' => h1.1 e h') Or.inr,
        fun k hk => h2.2 k (h1.2 k hk)⟩)
      (fun mf s s' hR hq m hm f hf hp => hR.2 _ (hq m hm f hf hp)) mom.Files
      (by
        intro s mf s' hmf hs
        unfold collectComponent at hs
        split at hs
        · cases hs
        · split at hs
          · cases hs
          · rename_i m hm
            simp only [Except.ok.injEq] at hs
            subst hs
            obtain ⟨h1, h2, h3⟩ := collectFiles_spec mInfo m.Files s
            refine ⟨⟨?_, h2⟩, ?_⟩
            · intro e he
              rcases h1 e he with h' | ⟨f, hf, hp, hfe⟩
              · exact Or.inl h'
              · exact Or.inr ⟨f, ⟨mom, mf, m, hmom, hmf, hm, hf, hp⟩, hfe⟩
            · intro m' hm' f hf hp
              rw [hm] at hm'
              cases hm'
              exact h3 f hf hp) _ _ h
    refine ⟨?_, ?_⟩
    · intro e he
      rcases hR1 e he with h' | h'
      · simp [GoMap.empty] at h'
      · exact h'
    · rintro f ⟨mom', mf, m, hmom', hmf, hm, hf, hp⟩
      rw [hmom] at hmom'
      cases hmom'
      exact hQ mf hmf m hm f hf hp


/-! ## Which jobs there are -/

/-- Every job lies under its own output path. -/
theorem job_out_eq_key (env : Env) (mInfo : ManifestInfo) (dl : GoMap finfo)
    (h : getAllManifestFiles env mInfo = .ok dl) (e : String × finfo) (he : e ∈ dl.entries) :
    e.2.out = e.1 := by
  obtain ⟨f, _, rfl⟩ := (getAllManifestFiles_spec env mInfo dl h).1 e he
  rfl

theorem length_filter_key_eq_one {α : Type} (m : GoMap α) (k : String) (hk : k ∈ m.keys) :
    (m.entries.filter (fun e => e.1 = k)).length = 1 := by
  have h1 : (m.keys.filter (fun x => x = k)).length = 1 := by
    have hc := List.count_eq_one_of_mem m.keys_nodup hk
    rw [List.count, List.countP_eq_length_filter] at hc
    rw [← hc]
    congr 1
  rw [← h1]
  unfold GoMap.keys
  rw [List.filter_map, List.length_map]
  rfl

/-- C7: when the job set is collected without error, a path is a key of it if
and only if it is the output path of a file entry that is present in a
component manifest of the tree; and an entry that is not present leaves the job
set as it is. -/
theorem job_keys_are_present_entries (env : Env) (mInfo : ManifestInfo) (dl : GoMap finfo)
    (h : getAllManifestFiles env mInfo = .ok dl) :
    (∀ p, p ∈ dl.keys ↔ ∃ f, InTree env mInfo f ∧ p = fileOut mInfo f) ∧
    (∀ (dl0 : GoMap finfo) (f : File),
      collectFiles mInfo dl0 [{ f with Present := false }] = dl0) := by
  obtain ⟨h1, h2⟩ := getAllManifestFiles_spec env mInfo dl h
  refine ⟨fun p => ⟨?_, ?_⟩, fun dl0 f => rfl⟩
  · intro hp
    obtain ⟨e, he, rfl⟩ := List.mem_map.mp hp
    obtain ⟨f, hf, rfl⟩ := h1 e he
    exact ⟨f, hf, rfl⟩
  · rintro ⟨f, hf, rfl⟩
    exact h2 f hf

/-- C7 at scenario 2: the collection returns, and its keys are the output paths
of the present file entries. -/
theorem job_keys_are_present_entries_witness :
    ∃ dl, getAllManifestFiles scenario2Env cdnInfo = .ok dl ∧
      (∀ p, p ∈ dl.keys ↔ ∃ f, InTree scenario2Env cdnInfo f ∧ p = fileOut cdnInfo f) ∧
      (∀ (dl0 : GoMap finfo) (f : File),
        collectFiles cdnInfo dl0 [{ f with Present := false }] = dl0) := by
  cases h : getAllManifestFiles scenario2Env cdnInfo with
  | error e =>
    have hok : (getAllManifestFiles scenario2Env cdnInfo).toBool = true := by decide
    rw [h] at hok
    cases hok
  | ok dl => exact ⟨dl, rfl, job_keys_are_present_entries scenario2Env cdnInfo dl h⟩

/-! ## One job for one archive -/

/-- C6 as the spec has it fails: `core` lists the hash `deadbeef` at version 10
and `os-core-update` lists it at version 20, both present, and the job set
holds two jobs for that hash. -/
theorem one_job_per_hash_counterexample :
    InTree twoVersionsEnv cdnInfo (deadbeefAt 10) ∧
    InTree twoVersionsEnv cdnInfo (deadbeefAt 20) ∧
    (deadbeefAt 10).Hash = (deadbeefAt 20).Hash ∧
    ((jobsOf (getAllManifestFiles twoVersionsEnv cdnInfo)).filter
      (isJobForHash "deadbeef")).length = 2 := by
  refine ⟨⟨_, ⟨"core", "c0", 10, true⟩, _, rfl, by decide, rfl, by decide, rfl⟩,
    ⟨_, ⟨"os-core-update", "c1", 10, true⟩, _, rfl, by decide, rfl, by decide, rfl⟩, rfl, ?_⟩
  decide

/-- C6, amended: when the job set is collected without error and two file
entries, present in component manifests of the tree, have the same hash and
the same version, they have the same output path and the job set holds exactly
one job with that output path.  In scenario 2 (`core` and `os-core-update` both
list `deadbeef`, present, at version 10) the job set holds exactly one job, and
it is a job for `deadbeef`. -/
theorem one_job_per_hash_and_version :
    (∀ (env : Env) (mInfo : ManifestInfo) (dl : GoMap finfo) (f g : File),
      getAllManifestFiles env mInfo = .ok dl → InTree env mInfo f → InTree env mInfo g →
      f.Hash = g.Hash → f.Version = g.Version →
      fileOut mInfo f = fileOut mInfo g ∧
        ((dl.entries.map Prod.snd).filter (fun j => j.out = fileOut mInfo f)).length = 1) ∧
    (jobsOf (getAllManifestFiles scenario2Env cdnInfo)).length = 1 ∧
    ((jobsOf (getAllManifestFiles scenario2Env cdnInfo)).filter
      (isJobForHash "deadbeef")).length = 1 := by
  refine ⟨?_, by decide, by decide⟩
  intro env mInfo dl f g h hf _ hh hv
  refine ⟨by simp only [fileOut, hh, hv], ?_⟩
  have hk := (getAllManifestFiles_spec env mInfo dl h).2 f hf
  rw [← length_filter_key_eq_one dl _ hk, List.filter_map, List.length_map]
  congr 1
  apply List.filter_congr
  intro e he
  simp only [Function.comp, job_out_eq_key env mInfo dl h e he]

/-- The amended C6 at scenario 2, for the two entries of `deadbeef`. -/
theorem one_job_per_hash_and_version_witness :
    ∃ dl, getAllManifestFiles scenario2Env cdnInfo = .ok dl ∧
      fileOut cdnInfo (deadbeefAt 10) = fileOut cdnInfo (deadbeefAt 10) ∧
      ((dl.entries.map Prod.snd).filter
        (fun j => j.out = fileOut cdnInfo (deadbeefAt 10))).length = 1 := by
  cases h : getAllManifestFiles scenario2Env cdnInfo with
  | error e =>
    have hok : (getAllManifestFiles scenario2Env cdnInfo).toBool = true := by decide
    rw [h] at hok
    cases hok
  | ok dl =>
    exact ⟨dl, rfl, one_job_per_hash_and_version.1 scenario2Env cdnInfo dl (deadbeefAt 10)
      (deadbeefAt 10) h
      ⟨_, ⟨"core", "c0", 10, true⟩, _, rfl, by decide, rfl, by decide, rfl⟩
      ⟨_, ⟨"os-core-update", "c1", 10, true⟩, _, rfl, by decide, rfl, by decide, rfl⟩
      rfl rfl⟩


/-! ## Paths made of plain elements -/

theorem intercalate_cons_cons {α : Type} (sep x y : List α) (ys : List (List α)) :
    sep.intercalate (x :: y :: ys) = x ++ sep ++ sep.intercalate (y :: ys) := by
  simp [List.intercalate, List.intersperse]

theorem intercalate_singleton {α : Type} (sep x : List α) : sep.intercalate [x] = x := by
  simp [List.intercalate, List.intersperse]

theorem intercalate_append {α : Type} (sep : List α) (l1 l2 : List (List α)) (h1 : l1 ≠ [])
    (h2 : l2 ≠ []) :
    sep.intercalate (l1 ++ l2) = sep.intercalate l1 ++ sep ++ sep.intercalate l2 := by
  induction l1 with
  | nil => exact absurd rfl h1
  | cons x rest ih =>
    cases rest with
    | nil =>
      cases l2 with
      | nil => exact absurd rfl h2
      | cons y ys => simp [intercalate_cons_cons, intercalate_singleton]
    | cons z zs =>
      have := ih (by simp)
      simp only [List.cons_append] at this ⊢
      rw [intercalate_cons_cons, this, intercalate_cons_cons]
      simp

theorem cleanStep_plain (rooted : Bool) (st : Nat × List (List Char)) (e : List Char)
    (he : PlainElem e) : cleanStep rooted st e = (st.1, st.2 ++ [e]) := by
  obtain ⟨h1, h2, h3, _⟩ := he
  simp [cleanStep, h1, h2, h3]

theorem foldl_cleanStep_plain (rooted : Bool) (comps : List (List Char))
    (hp : ∀ e ∈ comps, PlainElem e) :
    ∀ st : Nat × List (List Char),
      comps.foldl (cleanStep rooted) st = (st.1, st.2 ++ comps) := by
  induction comps with
  | nil => intro st; simp
  | cons e rest ih =>
    intro st
    rw [List.foldl_cons, cleanStep_plain rooted st e (hp e (List.mem_cons_self _ _)),
      ih (fun x hx => hp x (List.mem_cons_of_mem _ hx))]
    simp

theorem intercalate_plain_ne_nil (comps : List (List Char)) (hne : comps ≠ [])
    (hp : ∀ e ∈ comps, PlainElem e) :
    ∃ ch rest, ['/'].intercalate comps = ch :: rest ∧ ch ≠ '/' := by
  cases comps with
  | nil => exact absurd rfl hne
  | cons e es =>
    obtain ⟨h1, _, _, h4⟩ := hp e (List.mem_cons_self _ _)
    cases e with
    | nil => exact absurd rfl h1
    | cons ch t =>
      have hch : ch ≠ '/' := fun h => h4 (by simp [h])
      cases es with
      | nil => exact ⟨ch, t, by simp [intercalate_singleton], hch⟩
      | cons y ys => exact ⟨ch, _, by rw [intercalate_cons_cons]; rfl, hch⟩

/-- The function `filepath.Clean` leaves a plain path as it is. -/
theorem Clean_plain (rooted : Bool) (comps : List (List Char)) (hne : comps ≠ [])
    (hp : ∀ e ∈ comps, PlainElem e) :
    Clean (String.mk ((if rooted then ['/'] else []) ++ ['/'].intercalate comps))
      = String.mk ((if rooted then ['/'] else []) ++ ['/'].intercalate comps) := by
  obtain ⟨ch, rest, hd, hch⟩ := intercalate_plain_ne_nil comps hne hp
  have hsl : ∀ l ∈ comps, '/' ∉ l := fun l hl => (hp l hl).2.2.2
  cases rooted with
  | false =>
    have hsplit : (['/'].intercalate comps).splitOn '/' = comps :=
      List.splitOn_intercalate comps '/' hsl hne
    unfold Clean
    simp only [Bool.false_eq_true, if_false, List.nil_append]
    rw [hsplit, foldl_cleanStep_plain _ comps hp]
    simp only [List.replicate_zero, List.nil_append]
    rw [hd]
    simp [hch]
  | true =>
    have hcons : '/' :: ['/'].intercalate comps = ['/'].intercalate ([] :: comps) := by
      cases comps with
      | nil => exact absurd rfl hne
      | cons y ys => rw [intercalate_cons_cons]; rfl
    have hsplit : ('/' :: ['/'].intercalate comps).splitOn '/' = [] :: comps := by
      rw [hcons]
      apply List.splitOn_intercalate ([] :: comps) '/'
      · intro l hl
        rcases List.mem_cons.mp hl with rfl | hl
        · simp
        · exact hsl l hl
      · simp
    unfold Clean
    simp only [if_true, List.singleton_append]
    rw [hsplit, List.foldl_cons]
    have h0 : cleanStep (decide (('/' :: ['/'].intercalate comps).head? = some '/')) (0, []) []
        = (0, []) := by simp [cleanStep]
    rw [h0, foldl_cleanStep_plain _ comps hp]
    simp

/-- The function `filepath.Join`, given a plain path and further plain elements, puts them
together with single slashes. -/
theorem Join_plain (p : String) (rooted : Bool) (comps : List (List Char)) (hne : comps ≠ [])
    (hp : ∀ e ∈ comps, PlainElem e)
    (hdata : p.data = (if rooted then ['/'] else []) ++ ['/'].intercalate comps)
    (es : List String) (hes : es ≠ []) (hpe : ∀ e ∈ es, PlainElem e.data) :
    Join (p :: es)
      = String.mk ((if rooted then ['/'] else []) ++
          ['/'].intercalate (comps ++ es.map String.data)) := by
  obtain ⟨ch, rest, hd, _⟩ := intercalate_plain_ne_nil comps hne hp
  have hpne : p.data ≠ [] := by
    rw [hdata, hd]
    cases rooted <;> simp
  have hmap : es.map String.data ≠ [] := by
    cases es with
    | nil => exact absurd rfl hes
    | cons e t => simp
  have hjoin : ['/'].intercalate ((p :: es).map String.data)
      = (if rooted then ['/'] else []) ++ ['/'].intercalate (comps ++ es.map String.data) := by
    rw [intercalate_append _ _ _ hne hmap, List.map_cons]
    obtain ⟨y, ys, hy⟩ : ∃ y ys, es.map String.data = y :: ys := by
      cases hm : es.map String.data with
      | nil => exact absurd hm hmap
      | cons y ys => exact ⟨y, ys, rfl⟩
    rw [hy, intercalate_cons_cons, hdata]
    simp
  unfold Join
  rw [List.dropWhile_cons_of_neg (by simpa using hpne)]
  simp only
  rw [hjoin]
  apply Clean_plain
  · simp [hne]
  · intro e he
    rcases List.mem_append.mp he with he | he
    · exact hp e he
    · obtain ⟨x, hx, rfl⟩ := List.mem_map.mp he
      exact hpe x hx


/-! ## The archive path -/

theorem digitChar_ne (m : Nat) : Nat.digitChar m ≠ '/' ∧ Nat.digitChar m ≠ '.' := by
  by_cases h : m < 16
  · interval_cases m <;> exact ⟨by decide, by decide⟩
  · unfold Nat.digitChar
    iterate 16 rw [if_neg (by omega)]
    exact ⟨by decide, by decide⟩

theorem toDigitsCore_chars (fuel : Nat) :
    ∀ (n : Nat) (ds : List Char), (∀ ch ∈ ds, ch ≠ '/' ∧ ch ≠ '.') →
      ∀ ch ∈ Nat.toDigitsCore 10 fuel n ds, ch ≠ '/' ∧ ch ≠ '.' := by
  induction fuel with
  | zero => intro n ds h; simpa [Nat.toDigitsCore] using h
  | succ k ih =>
    intro n ds h
    have hcons : ∀ ch ∈ Nat.digitChar (n % 10) :: ds, ch ≠ '/' ∧ ch ≠ '.' := by
      intro ch hch
      rcases List.mem_cons.mp hch with rfl | hch
      · exact digitChar_ne _
      · exact h ch hch
    unfold Nat.toDigitsCore
    simp only
    split
    · exact hcons
    · exact ih _ _ hcons

theorem toDigitsCore_ne_nil (fuel : Nat) :
    ∀ (n : Nat) (ds : List Char), ds ≠ [] → Nat.toDigitsCore 10 fuel n ds ≠ [] := by
  induction fuel with
  | zero => intro n ds h; simpa [Nat.toDigitsCore] using h
  | succ k ih =>
    intro n ds _
    unfold Nat.toDigitsCore
    simp only
    split
    · simp
    · exact ih _ _ (by simp)

/-- The decimal form of a number is a plain path element. -/
theorem plainElem_toString (n : Nat) : PlainElem (toString n).data := by
  have hdata : (toString n).data = Nat.toDigitsCore 10 (n + 1) n [] := rfl
  have hch := toDigitsCore_chars (n + 1) n [] (by simp)
  have hne : Nat.toDigitsCore 10 (n + 1) n [] ≠ [] := by
    unfold Nat.toDigitsCore
    simp only
    split
    · simp
    · exact toDigitsCore_ne_nil _ _ _ (by simp)
  rw [hdata]
  refine ⟨hne, ?_, ?_, ?_⟩
  · intro h
    exact (hch '.' (by rw [h]; simp)).2 rfl
  · intro h
    exact (hch '.' (by rw [h]; simp)).2 rfl
  · intro h
    exact (hch '/' h).1 rfl

/-- The name of an archive, a hash without a slash followed by `.tar`, is a
plain path element. -/
theorem plainElem_tar (hash : String) (h : '/' ∉ hash.data) :
    PlainElem (hash ++ ".tar").data := by
  have hdata : (hash ++ ".tar").data = hash.data ++ ['.', 't', 'a', 'r'] := by
    rw [String.data_append]
  rw [hdata]
  refine ⟨by simp, ?_, ?_, ?_⟩
  · intro h'
    have := congrArg List.length h'
    simp at this
  · intro h'
    have := congrArg List.length h'
    simp at this
  · simp [h]

/-- Under a plain cache root, the output path of a file entry whose hash has no
slash is the root, `/update/`, the version, `/files/`, the hash and `.tar`. -/
theorem fileOut_plain (mInfo : ManifestInfo) (hroot : PlainPath mInfo.CacheLoc) (f : File)
    (hf : '/' ∉ f.Hash.data) :
    fileOut mInfo f
      = mInfo.CacheLoc ++ "/update/" ++ toString f.Version ++ "/files/" ++ f.Hash ++ ".tar" := by
  obtain ⟨rooted, comps, hne, hp, hdata⟩ := hroot
  have hupdate : PlainElem "update".data := by
    refine ⟨by decide, by decide, by decide, by decide⟩
  have hfiles : PlainElem "files".data := by
    refine ⟨by decide, by decide, by decide, by decide⟩
  have h1 : Join [mInfo.CacheLoc, "update"]
      = String.mk ((if rooted then ['/'] else []) ++
          ['/'].intercalate (comps ++ ["update"].map String.data)) :=
    Join_plain mInfo.CacheLoc rooted comps hne hp hdata ["update"] (by simp)
      (by intro e he; rw [List.mem_singleton] at he; subst he; exact hupdate)
  have h2 := Join_plain (Join [mInfo.CacheLoc, "update"]) rooted
    (comps ++ ["update"].map String.data) (by simp)
    (by
      intro e he
      rcases List.mem_append.mp he with he | he
      · exact hp e he
      · simp only [List.map_cons, List.map_nil, List.mem_singleton] at he
        subst he
        exact hupdate)
    (by rw [h1])
    [toString f.Version, "files", f.Hash ++ ".tar"] (by simp)
    (by
      intro e he
      simp only [List.mem_cons, List.mem_singleton, List.not_mem_nil, or_false] at he
      rcases he with rfl | rfl | rfl
      · exact plainElem_toString _
      · exact hfiles
      · exact plainElem_tar _ hf)
  unfold fileOut
  rw [h2]
  apply String.ext
  simp only [String.data_append, hdata, List.map_cons, List.map_nil]
  rw [intercalate_append _ _ _ (by simp [hne]) (by simp),
    intercalate_append _ _ _ hne (by simp)]
  simp [intercalate_cons_cons, intercalate_singleton]

theorem split_at_first_slash (a b x y : List Char) (ha : '/' ∉ a) (hb : '/' ∉ b)
    (h : a ++ '/' :: x = b ++ '/' :: y) : a = b ∧ x = y := by
  induction a generalizing b with
  | nil =>
    cases b with
    | nil => simpa using h
    | cons ch t =>
      simp only [List.nil_append, List.cons_append, List.cons.injEq] at h
      exact absurd h.1.symm (fun hc => hb (by simp [hc]))
  | cons ch t ih =>
    cases b with
    | nil =>
      simp only [List.nil_append, List.cons_append, List.cons.injEq] at h
      exact absurd h.1 (fun hc => ha (by simp [hc]))
    | cons ch' t' =>
      simp only [List.cons_append, List.cons.injEq] at h
      obtain ⟨h1, h2⟩ := ih t' (fun hm => ha (List.mem_cons_of_mem _ hm))
        (fun hm => hb (List.mem_cons_of_mem _ hm)) h.2
      exact ⟨by rw [h.1, h1], h2⟩

/-- Under a plain cache root, file entries whose hashes have no slash and whose
output paths agree have the same decimal version and the same hash. -/
theorem fileOut_injective (mInfo : ManifestInfo) (hroot : PlainPath mInfo.CacheLoc)
    (f g : File) (hf : '/' ∉ f.Hash.data) (hg : '/' ∉ g.Hash.data)
    (h : fileOut mInfo f = fileOut mInfo g) :
    toString f.Version = toString g.Version ∧ f.Hash = g.Hash := by
  rw [fileOut_plain mInfo hroot f hf, fileOut_plain mInfo hroot g hg] at h
  have hd := congrArg String.data h
  simp only [String.data_append, List.append_assoc] at hd
  have hd1 := List.append_cancel_left (List.append_cancel_left hd)
  have hfiles : ∀ t : List Char, "/files/".data ++ t = '/' :: ("files/".data ++ t) := fun _ => rfl
  rw [hfiles, hfiles] at hd1
  obtain ⟨hv, hrest⟩ := split_at_first_slash _ _ _ _ (plainElem_toString f.Version).2.2.2
    (plainElem_toString g.Version).2.2.2 hd1
  have hh := List.append_cancel_right (List.append_cancel_left hrest)
  exact ⟨String.ext hv, String.ext hh⟩


/-! ## The job of a present file entry -/

/-- C8 as the spec has it fails: with the cache root `/cache/` the one job of
scenario 2 has the output path `/cache/update/10/files/deadbeef.tar`, which is
what `filepath.Join` makes of the root and the elements, and not the path
`/cache//update/10/files/deadbeef.tar` that the pattern of the spec spells. -/
theorem archive_path_counterexample :
    InTree scenario2Env { cdnInfo with CacheLoc := "/cache/" } (deadbeefAt 10) ∧
    (jobsOf (getAllManifestFiles scenario2Env { cdnInfo with CacheLoc := "/cache/" })).map
        (fun j => j.out) = ["/cache/update/10/files/deadbeef.tar"] ∧
    ∀ j ∈ jobsOf (getAllManifestFiles scenario2Env { cdnInfo with CacheLoc := "/cache/" }),
      j.out ≠ "/cache/" ++ "/update/" ++ toString (deadbeefAt 10).Version ++ "/files/" ++
        (deadbeefAt 10).Hash ++ ".tar" := by
  refine ⟨⟨_, ⟨"core", "c0", 10, true⟩, _, rfl, by decide, rfl, by decide, rfl⟩, ?_, ?_⟩
  · decide
  · decide

/-- C8, amended: when the cache root is a plain path and no hash of a present
file entry of the tree contains a slash, then for every present file entry `f`
of every component manifest the job set holds, under the key
`{cacheRoot}/update/{f.Version}/files/{f.Hash}.tar`, the job whose output path
is that key and whose source URL is
`{origin}/update/{f.Version}/files/{f.Hash}.tar`; the version is that of the
file entry. -/
theorem job_of_present_entry (env : Env) (mInfo : ManifestInfo) (dl : GoMap finfo)
    (h : getAllManifestFiles env mInfo = .ok dl) (hroot : PlainPath mInfo.CacheLoc)
    (hhash : ∀ g, InTree env mInfo g → '/' ∉ g.Hash.data) (f : File)
    (hf : InTree env mInfo f) :
    dl.get? (mInfo.CacheLoc ++ "/update/" ++ toString f.Version ++ "/files/" ++ f.Hash ++ ".tar")
      = some
        { out :=
            mInfo.CacheLoc ++ "/update/" ++ toString f.Version ++ "/files/" ++ f.Hash ++ ".tar"
          url :=
            mInfo.UpstreamURL ++ "/update/" ++ toString f.Version ++ "/files/" ++ f.Hash ++ ".tar"
          err := none } := by
  obtain ⟨h1, h2⟩ := getAllManifestFiles_spec env mInfo dl h
  obtain ⟨v, hv, hmem⟩ := GoMap.get?_of_mem_keys dl _ (h2 f hf)
  obtain ⟨g, hg, hge⟩ := h1 _ hmem
  simp only [Prod.mk.injEq] at hge
  obtain ⟨hout, hjob⟩ := hge
  obtain ⟨hver, hhh⟩ := fileOut_injective mInfo hroot f g (hhash f hf) (hhash g hg) hout
  rw [← fileOut_plain mInfo hroot f (hhash f hf), hv, hjob]
  simp only [jobOf, fileURL, ← hout, ← hver, ← hhh]

/-- The amended C8 at scenario 2: the cache root `/cache` is plain,
`deadbeef` has no slash, and the job of the entry lies under
`/cache/update/10/files/deadbeef.tar`. -/
theorem job_of_present_entry_witness :
    ∃ dl, getAllManifestFiles scenario2Env cdnInfo = .ok dl ∧
      dl.get? (cdnInfo.CacheLoc ++ "/update/" ++ toString (deadbeefAt 10).Version ++ "/files/" ++
          (deadbeefAt 10).Hash ++ ".tar")
        = some
          { out := cdnInfo.CacheLoc ++ "/update/" ++ toString (deadbeefAt 10).Version ++
              "/files/" ++ (deadbeefAt 10).Hash ++ ".tar"
            url := cdnInfo.UpstreamURL ++ "/update/" ++ toString (deadbeefAt 10).Version ++
              "/files/" ++ (deadbeefAt 10).Hash ++ ".tar"
            err := none } := by
  cases h : getAllManifestFiles scenario2Env cdnInfo with
  | error e =>
    have hok : (getAllManifestFiles scenario2Env cdnInfo).toBool = true := by decide
    rw [h] at hok
    cases hok
  | ok dl =>
    refine ⟨dl, rfl, job_of_present_entry scenario2Env cdnInfo dl h
      ⟨true, ["cache".data], by simp, by
        intro e he
        rw [List.mem_singleton] at he
        subst he
        exact ⟨by decide, by decide, by decide, by decide⟩, by decide⟩
      ?_ (deadbeefAt 10)
      ⟨_, ⟨"core", "c0", 10, true⟩, _, rfl, by decide, rfl, by decide, rfl⟩⟩
    rintro g ⟨mom, mf, m, hmom, hmf, hm, hg, _⟩
    have hmom' : GetMom scenario2Env cdnInfo = .ok
        { Name := "MoM",
          Files := [⟨"core", "c0", 10, true⟩, ⟨"os-core-update", "c1", 10, true⟩] } := rfl
    rw [hmom'] at hmom
    cases hmom
    simp only [List.mem_cons, List.mem_singleton, List.not_mem_nil, or_false] at hmf
    rcases hmf with rfl | rfl
    · have hm' : scenario2Env.parseManifestFile (manifestOut cdnInfo ⟨"core", "c0", 10, true⟩)
          = .ok { Name := "core", Files := [deadbeefAt 10] } := rfl
      rw [hm'] at hm
      cases hm
      simp only [List.mem_singleton] at hg
      subst hg
      decide
    · have hm' : scenario2Env.parseManifestFile
          (manifestOut cdnInfo ⟨"os-core-update", "c1", 10, true⟩)
          = .ok { Name := "os-core-update", Files := [deadbeefAt 10] } := rfl
      rw [hm'] at hm
      cases hm
      simp only [List.mem_singleton] at hg
      subst hg
      decide


/-! ## The worker pool and its error channel -/

theorem sum_map_set {α : Type} (w : α → Nat) (b : α) :
    ∀ (l : List α) (i : Nat) (a : α), l.get? i = some a →
      ((l.set i b).map w).sum + w a = (l.map w).sum + w b := by
  intro l
  induction l with
  | nil => intro i a h; simp at h
  | cons x rest ih =>
    intro i a h
    cases i with
    | zero =>
      simp only [List.get?_cons_zero, Option.some.injEq] at h
      subst h
      simp only [List.set_cons_zero, List.map_cons, List.sum_cons]
      omega
    | succ j =>
      simp only [List.get?_cons_succ] at h
      have := ih j a h
      simp only [List.set_cons_succ, List.map_cons, List.sum_cons]
      omega

theorem mem_of_mem_set {α : Type} (l : List α) (i : Nat) (b x : α) (h : x ∈ l.set i b) :
    x = b ∨ x ∈ l := by
  rcases List.mem_or_eq_of_mem_set h with h' | h'
  · exact Or.inr h'
  · exact Or.inl h'

/-- No step changes the number of failing jobs of the state. -/
theorem poolStep_failures (env : Env) (s s' : PoolState) (a : Action)
    (h : poolStep env s a = some s') : failures env s' = failures env s := by
  cases a with
  | handoff i =>
    simp only [poolStep] at h
    split at h
    · rename_i f rest hm hw
      simp only [Option.some.injEq] at h
      subst h
      have hs := sum_map_set (workerDebt env) (.working f) s.workers i _ hw
      simp only [failures, hm, pendingJobs, List.countP_cons, workerDebt] at hs ⊢
      split
      · simp_all
        omega
      · simp_all
    · cases h
  | close =>
    simp only [poolStep] at h
    split at h
    · rename_i hm
      simp only [Option.some.injEq] at h
      subst h
      simp [failures, hm, pendingJobs]
    · cases h
  | work i =>
    simp only [poolStep] at h
    split at h
    · rename_i f hw
      split at h
      · rename_i ho
        simp only [Option.some.injEq] at h
        subst h
        have hs := sum_map_set (workerDebt env) .receiving s.workers i _ hw
        have hd : workerDebt env (.working f) = 0 := by simp [workerDebt, jobFails, ho]
        have hr : workerDebt env .receiving = 0 := rfl
        rw [hd, hr] at hs
        simp only [failures]
        omega
      · rename_i err ho
        simp only [Option.some.injEq] at h
        subst h
        have hs := sum_map_set (workerDebt env) (.sending err) s.workers i _ hw
        have hd : workerDebt env (.working f) = 1 := by simp [workerDebt, jobFails, ho]
        have hr : workerDebt env (.sending err) = 1 := rfl
        rw [hd, hr] at hs
        simp only [failures]
        omega
    · cases h
  | send i =>
    simp only [poolStep] at h
    split at h
    · rename_i err hw
      split at h
      · simp only [Option.some.injEq] at h
        subst h
        have hs := sum_map_set (workerDebt env) .receiving s.workers i _ hw
        simp only [failures, workerDebt, List.length_append, List.length_singleton] at hs ⊢
        omega
      · cases h
    · cases h
  | exit i =>
    simp only [poolStep] at h
    split at h
    · rename_i hm hw
      simp only [Option.some.injEq] at h
      subst h
      have hs := sum_map_set (workerDebt env) .done s.workers i _ hw
      simp only [failures, workerDebt] at hs ⊢
      omega
    · cases h
  | ret =>
    simp only [poolStep] at h
    split at h
    · rename_i hm
      split at h
      · simp only [Option.some.injEq] at h
        subst h
        simp [failures, hm, pendingJobs]
      · cases h
    · cases h

/-- What holds of every state of a run: `errChan` holds at most `nworkers`
errors, and once the main goroutine has returned every worker is done. -/
theorem poolStep_invariant (env : Env) (s s' : PoolState) (a : Action)
    (h : poolStep env s a = some s')
    (hinv : s.errChan.length ≤ nworkers ∧ (s.main = .returned → ∀ w ∈ s.workers, w = .done)) :
    s'.errChan.length ≤ nworkers ∧ (s'.main = .returned → ∀ w ∈ s'.workers, w = .done) := by
  have hlen := hinv.1
  cases a with
  | handoff i =>
    simp only [poolStep] at h
    split at h
    · simp only [Option.some.injEq] at h
      subst h
      exact ⟨hlen, fun hm => by cases hm⟩
    · cases h
  | close =>
    simp only [poolStep] at h
    split at h
    · simp only [Option.some.injEq] at h
      subst h
      exact ⟨hlen, fun hm => by cases hm⟩
    · cases h
  | work i =>
    simp only [poolStep] at h
    split at h
    · rename_i f hw
      have hmem : WorkerState.working f ∈ s.workers := List.get?_mem hw
      have hnot : s.main ≠ .returned := fun hm => by
        have := hinv.2 hm _ hmem
        cases this
      split at h <;>
      · simp only [Option.some.injEq] at h
        subst h
        exact ⟨hlen, fun hm => absurd hm hnot⟩
    · cases h
  | send i =>
    simp only [poolStep] at h
    split at h
    · rename_i err hw
      have hmem : WorkerState.sending err ∈ s.workers := List.get?_mem hw
      have hnot : s.main ≠ .returned := fun hm => by
        have := hinv.2 hm _ hmem
        cases this
      split at h
      · rename_i hroom
        simp only [Option.some.injEq] at h
        subst h
        refine ⟨?_, fun hm => absurd hm hnot⟩
        simp only [List.length_append, List.length_singleton]
        omega
      · cases h
    · cases h
  | exit i =>
    simp only [poolStep] at h
    split at h
    · rename_i hm hw
      simp only [Option.some.injEq] at h
      subst h
      exact ⟨hlen, fun hm' => by rw [hm] at hm'; cases hm'⟩
    · cases h
  | ret =>
    simp only [poolStep] at h
    split at h
    · split at h
      · rename_i hall
        simp only [Option.some.injEq] at h
        subst h
        refine ⟨hlen, fun _ w hw => ?_⟩
        have := List.all_eq_true.mp hall w hw
        simpa using this
      · cases h
    · cases h

/-- A run of the pool keeps the number of failing jobs, and `UpdateFiles`
returns only from a state in which all of them are in `errChan`, which holds
`nworkers` errors at most: with more failing jobs than that it never returns. -/
theorem pool_never_returns (env : Env) (jobs : List finfo)
    (hmany : nworkers < jobs.countP (jobFails env)) (acts : List Action) (s : PoolState)
    (hs : runActions env (poolInit jobs) acts = some s) : s.main ≠ .returned := by
  have hrel := foldlM_option_rel (poolStep env)
    (fun a b : PoolState => failures env b = failures env a ∧
      ((a.errChan.length ≤ nworkers ∧ (a.main = .returned → ∀ w ∈ a.workers, w = .done)) →
        (b.errChan.length ≤ nworkers ∧ (b.main = .returned → ∀ w ∈ b.workers, w = .done))))
    (fun _ => ⟨rfl, fun h => h⟩)
    (fun _ _ _ h1 h2 => ⟨h2.1.trans h1.1, fun h => h2.2 (h1.2 h)⟩) acts
    (fun a act b _ hstep => ⟨poolStep_failures env a b act hstep,
      poolStep_invariant env a b act hstep⟩) _ _ hs
  obtain ⟨hfail, hinv⟩ := hrel
  have hinit : failures env (poolInit jobs) = jobs.countP (jobFails env) := by
    simp [failures, poolInit, pendingJobs, workerDebt]
  obtain ⟨hlen, hdone⟩ := hinv ⟨by simp [poolInit], fun hm => by cases hm⟩
  intro hret
  have hzero : (s.workers.map (workerDebt env)).sum = 0 := by
    apply List.sum_eq_zero
    intro x hx
    obtain ⟨w, hw, rfl⟩ := List.mem_map.mp hx
    rw [hdone hret w hw]
    rfl
  rw [hinit] at hfail
  simp only [failures, hret, pendingJobs, List.countP_nil, hzero] at hfail
  omega


/-- C10, the code at a failing input: the tree lists nine present file entries
and every download of a file archive fails.  `UpdateFiles` collects the nine
jobs and starts the pool; no run of the pool, whatever the order of the steps,
arrives at the return of nil; and the run of `nineFailuresSchedule` ends, with
eight errors in `errChan` and a worker at its ninth send, in a state from which
no goroutine can take a step. -/
theorem update_files_blocks_on_nine_failures :
    UpdateFiles nineFailuresEnv cdnInfo = .ok (poolInit nineJobs) ∧
    (∀ acts s, runActions nineFailuresEnv (poolInit nineJobs) acts = some s →
      s.main ≠ .returned) ∧
    runActions nineFailuresEnv (poolInit nineJobs) nineFailuresSchedule
      = some nineFailuresEnd ∧
    ∀ a, poolStep nineFailuresEnv nineFailuresEnd a = none := by
  refine ⟨rfl, fun acts s hs => pool_never_returns _ _ (by decide) acts s hs, by decide, ?_⟩
  have hw : ∀ i w, nineFailuresEnd.workers.get? i = some w →
      w = .sending "404 Not Found" ∨ w = .done := by
    intro i w h
    have hmem := List.get?_mem h
    simp only [nineFailuresEnd, List.mem_cons, List.mem_replicate] at hmem
    rcases hmem with h1 | ⟨_, h2⟩
    · exact Or.inl h1
    · exact Or.inr h2
  intro a
  cases a with
  | handoff i => simp [poolStep, nineFailuresEnd]
  | close => simp [poolStep, nineFailuresEnd]
  | work i =>
    simp only [poolStep]
    cases hg : nineFailuresEnd.workers.get? i with
    | none => rfl
    | some w => rcases hw i w hg with rfl | rfl <;> rfl
  | send i =>
    simp only [poolStep]
    cases hg : nineFailuresEnd.workers.get? i with
    | none => rfl
    | some w => rcases hw i w hg with rfl | rfl <;> rfl
  | exit i =>
    simp only [poolStep]
    cases hg : nineFailuresEnd.workers.get? i with
    | none => rfl
    | some w => rcases hw i w hg with rfl | rfl <;> rfl
  | ret => simp [poolStep, nineFailuresEnd]

/-! ## The mirror of requires and provides -/

theorem swapRPM_swapRPM (p : RPM) : swapRPM (swapRPM p) = p := rfl

theorem swapDep_swapDep (d : RPMDepInfo) : swapDep (swapDep d) = d := rfl

theorem swapWalk_swapWalk (w : Walk) : swapWalk (swapWalk w) = w := rfl

/-- A lookup in the exchanged store gives the exchanged package. -/
theorem getRPM_swapStore (c : Redis) (repo : Repo) (i : String) :
    GetRPM (swapStore c) repo i =
      match GetRPM c repo i with
      | .ok p => .ok (swapRPM p)
      | .error err => .error err := by
  unfold GetRPM getRPMRedis swapStore
  rw [List.find?_map]
  cases h : c.find? ((fun e : String × RPM => decide (e.1 = pkgKey repo i)) ∘
      fun e => (e.1, swapRPM e.2)) with
  | none =>
    have h' : c.find? (fun e => decide (e.1 = pkgKey repo i)) = none := h
    rw [h']
    rfl
  | some e =>
    have h' : c.find? (fun e => decide (e.1 = pkgKey repo i)) = some e := h
    rw [h']
    rfl

/-- A loop run on images under `φ` gives the image of the result, when each
iteration does. -/
theorem foldlM_option_map {σ τ ι : Type} (φ : σ → τ) (f : σ → ι → Option σ)
    (g : τ → ι → Option τ) (h : ∀ s i, g (φ s) i = (f s i).map φ) (l : List ι) :
    ∀ s, l.foldlM g (φ s) = (l.foldlM f s).map φ := by
  induction l with
  | nil => intro s; rfl
  | cons i rest ih =>
    intro s
    simp only [List.foldlM_cons, Option.bind_eq_bind, h s i]
    cases f s i with
    | none => rfl
    | some s1 => exact ih s1

/-- On the exchanged package, store and closure, `RecursiveRequires` does what
`RecursiveProvides` does on the given ones, up to the exchange. -/
theorem RecursiveRequires_swap (c : Redis) (repo : Repo) (fuel : Nat) :
    ∀ (r : RPM) (w : Walk),
      RecursiveRequires fuel (swapStore c) (swapRPM r) repo (swapWalk w)
        = (RecursiveProvides fuel c r repo w).map swapWalk := by
  induction fuel with
  | zero => intro r w; rfl
  | succ n ih =>
    intro r w
    simp only [RecursiveRequires, RecursiveProvides]
    by_cases hv : w.visited.contains r.Name = true
    · have hv' : (swapWalk w).visited.contains (swapRPM r).Name = true := hv
      rw [if_pos hv, if_pos hv']
      rfl
    · have hv' : ¬ (swapWalk w).visited.contains (swapRPM r).Name = true := hv
      rw [if_neg hv, if_neg hv']
      refine foldlM_option_map swapWalk _ _ ?_ r.Provides
        { w with visited := w.visited.set r.Name true, entered := w.entered ++ [r.Name] }
      intro s i
      simp only [getRPM_swapStore]
      cases GetRPM c repo i with
      | ok dep =>
        exact ih dep
          { s with rpmDep := { s.rpmDep with Provides := s.rpmDep.Provides.set i true } }
      | error err => rfl

/-- C11: `RecursiveProvides` is the mirror image of `RecursiveRequires`.  For
every store, repository, package `r`, closure and `visited` map, and for every
fuel, `RecursiveProvides` gives what `RecursiveRequires` gives on the package,
store and closure with Requires and Provides exchanged, exchanged back.  With
fuel of the store's size plus two or more both return, and `visited` ends up
the same in both. -/
theorem provides_mirrors_requires (c : Redis) (repo : Repo) (r : RPM) (w : Walk) :
    (∀ fuel, RecursiveProvides fuel c r repo w
        = (RecursiveRequires fuel (swapStore c) (swapRPM r) repo (swapWalk w)).map swapWalk) ∧
    ∃ w1 w2,
      (∀ extra, RecursiveProvides (c.length + 2 + extra) c r repo w = some w1) ∧
      (∀ extra, RecursiveRequires (c.length + 2 + extra) (swapStore c) (swapRPM r) repo
          (swapWalk w) = some w2) ∧
      swapWalk w2 = w1 ∧ w2.visited = w1.visited := by
  have hmirror : ∀ fuel, RecursiveProvides fuel c r repo w
      = (RecursiveRequires fuel (swapStore c) (swapRPM r) repo (swapWalk w)).map swapWalk := by
    intro fuel
    rw [RecursiveRequires_swap, Option.map_map]
    cases RecursiveProvides fuel c r repo w with
    | none => rfl
    | some w' => rfl
  refine ⟨hmirror, ?_⟩
  obtain ⟨w1, h1, _⟩ := walk_terminates_once RPM.Provides addProvides c repo r w
  have hp : ∀ extra, RecursiveProvides (c.length + 2 + extra) c r repo w = some w1 :=
    fun extra => (RecursiveProvides_eq_walk _ c r repo w).trans (h1 extra)
  refine ⟨w1, swapWalk w1, hp, ?_, rfl, rfl⟩
  intro extra
  rw [RecursiveRequires_swap, hp extra]
  rfl

/-! ## The key of a closure -/

theorem TrimSuffix_append (n suffix : String) : TrimSuffix (n ++ suffix) suffix = n := by
  unfold TrimSuffix
  have hs : suffix.data.isSuffixOf (n ++ suffix).data = true := by
    rw [List.isSuffixOf_iff_suffix, String.data_append]
    exact List.suffix_append _ _
  rw [if_pos hs]
  apply String.ext
  simp [String.data_append]

theorem TrimSuffix_of_not_suffix (s suffix : String) (h : ∀ n, s ≠ n ++ suffix) :
    TrimSuffix s suffix = s := by
  unfold TrimSuffix
  split
  · rename_i hs
    rw [List.isSuffixOf_iff_suffix] at hs
    obtain ⟨t, ht⟩ := hs
    exact absurd (String.ext (by rw [String.data_append]; exact ht.symm)) (h (String.mk t))
  · rfl

theorem keys_setEntry_of_mem {α : Type} (k : String) (v : α) (l : List (String × α))
    (h : k ∈ l.map Prod.fst) : (setEntry k v l).map Prod.fst = l.map Prod.fst := by
  induction l with
  | nil => simp at h
  | cons e rest ih =>
    by_cases hk : e.1 = k
    · simp [setEntry, hk]
    · have hrest : k ∈ rest.map Prod.fst := by
        rcases List.mem_cons.mp h with h' | h'
        · exact absurd h'.symm hk
        · exact h'
      simp [setEntry, hk, ih hrest]

theorem keys_setEntry_of_not_mem {α : Type} (k : String) (v : α) (l : List (String × α))
    (h : k ∉ l.map Prod.fst) : (setEntry k v l).map Prod.fst = l.map Prod.fst ++ [k] := by
  induction l with
  | nil => simp [setEntry]
  | cons e rest ih =>
    have hk : ¬ e.1 = k := fun hk => h (by simp [hk])
    have hrest : k ∉ rest.map Prod.fst := fun hm => h (List.mem_cons_of_mem _ hm)
    simp [setEntry, hk, ih hrest]

theorem find?_setEntry_other {α : Type} (k k' : String) (v : α) (l : List (String × α))
    (h : k' ≠ k) :
    (setEntry k v l).find? (fun e => e.1 = k') = l.find? (fun e => e.1 = k') := by
  induction l with
  | nil => simp [setEntry, Ne.symm h]
  | cons e rest ih =>
    by_cases hk : e.1 = k
    · have hk' : ¬ e.1 = k' := fun h' => h (h'.symm.trans hk)
      simp [setEntry, hk, hk', Ne.symm h]
    · by_cases hk' : e.1 = k'
      · simp [setEntry, hk', h]
      · simp [setEntry, hk, hk', ih]

/-- Writing under a key that is there changes no key. -/
theorem GoMap.keys_set_of_mem {α : Type} (m : GoMap α) (k : String) (v : α) (h : k ∈ m.keys) :
    (m.set k v).keys = m.keys :=
  keys_setEntry_of_mem k v m.entries h

/-- Writing under a key that is not there adds the key at the end. -/
theorem GoMap.keys_set_of_not_mem {α : Type} (m : GoMap α) (k : String) (v : α)
    (h : k ∉ m.keys) : (m.set k v).keys = m.keys ++ [k] :=
  keys_setEntry_of_not_mem k v m.entries h

/-- Writing under one key leaves what is read under another. -/
theorem GoMap.get?_set_other {α : Type} (m : GoMap α) (k k' : String) (v : α) (h : k' ≠ k) :
    (m.set k v).get? k' = m.get? k' := by
  unfold GoMap.get? GoMap.set
  simp only [find?_setEntry_other k k' v m.entries h]

/-- What can be read under a key is under a key of the map. -/
theorem GoMap.mem_keys_of_get? {α : Type} (m : GoMap α) (k : String) (v : α)
    (h : m.get? k = some v) : k ∈ m.keys := by
  unfold GoMap.get? at h
  cases hf : m.entries.find? (fun e => e.1 = k) with
  | none => rw [hf] at h; cases h
  | some e =>
    have h1 := List.find?_some hf
    simp only [decide_eq_true_eq] at h1
    rw [← h1]
    exact List.mem_map.mpr ⟨e, List.mem_of_find?_eq_some hf, rfl⟩

/-- A returning call of `RecursiveRequires` leaves the packages of the closure
as they are. -/
theorem callRecursiveRequires_keeps (fuel : Nat) (c : Redis) (repo : Repo) (d d' : RPMDepInfo)
    (r : Option RPM) (printed : List String)
    (h : callRecursiveRequires fuel c d r repo printed = .ok d') :
    d'.RPMs = d.RPMs ∧ d'.SRPM = d.SRPM := by
  unfold callRecursiveRequires at h
  split at h
  · cases h
  · rename_i r0
    split at h
    · rename_i w hw
      simp only [Except.ok.injEq] at h
      subst h
      rw [RecursiveRequires_eq_walk] at hw
      exact ⟨walk_keeps RPM.Requires addRequires (fun d => d.RPMs) (fun _ _ => rfl) c repo fuel r0
          _ w hw,
        walk_keeps RPM.Requires addRequires (fun d => d.SRPM) (fun _ _ => rfl) c repo fuel r0
          _ w hw⟩
    · cases h

/-- A returning call of `RecursiveProvides` leaves the packages of the closure
as they are. -/
theorem callRecursiveProvides_keeps (fuel : Nat) (c : Redis) (repo : Repo) (d d' : RPMDepInfo)
    (r : Option RPM) (printed : List String)
    (h : callRecursiveProvides fuel c d r repo printed = .ok d') :
    d'.RPMs = d.RPMs ∧ d'.SRPM = d.SRPM := by
  unfold callRecursiveProvides at h
  split at h
  · cases h
  · rename_i r0
    split at h
    · rename_i w hw
      simp only [Except.ok.injEq] at h
      subst h
      rw [RecursiveProvides_eq_walk] at hw
      exact ⟨walk_keeps RPM.Provides addProvides (fun d => d.RPMs) (fun _ _ => rfl) c repo fuel r0
          _ w hw,
        walk_keeps RPM.Provides addProvides (fun d => d.SRPM) (fun _ _ => rfl) c repo fuel r0
          _ w hw⟩
    · cases h

/-- Adding a binary package to a closure keeps its source package and its
packages, and puts the binary package under its name. -/
theorem addBinary_keeps (fuel : Nat) (c : Redis) (binaryRPMs : Repo) (d d' : RPMDepInfo)
    (r : RPM) (printed : List String) (h : addBinary fuel c binaryRPMs d r printed = .ok d') :
    d'.RPMs = d.RPMs.set r.Name r ∧ d'.SRPM = d.SRPM := by
  unfold addBinary at h
  split at h
  · cases h
  · rename_i d1 h1
    obtain ⟨a1, a2⟩ := callRecursiveRequires_keeps fuel c binaryRPMs _ _ _ _ h1
    obtain ⟨b1, b2⟩ := callRecursiveProvides_keeps fuel c binaryRPMs _ _ _ _ h
    exact ⟨b1.trans a1, b2.trans a2⟩

/-- Lines 110 to 126 either find a closure under the key and do nothing, or
find none and store one. -/
theorem seedClosure_spec (fuel : Nat) (c : Redis) (sourceRPMs : Repo) (r : RPM)
    (srpmName : String) (st st1 : RunState)
    (h : seedClosure fuel c sourceRPMs r srpmName st = .ok st1) :
    (st.depInfo.contains srpmName = true ∧ st1 = st) ∨
      (st.depInfo.contains srpmName = false ∧
        ∃ d2, st1.depInfo = st.depInfo.set srpmName d2) := by
  unfold seedClosure at h
  by_cases hc : st.depInfo.contains srpmName = true
  · rw [if_pos hc] at h
    exact Or.inl ⟨hc, (Except.ok.inj h).symm⟩
  · rw [if_neg hc] at h
    simp only at h
    split at h
    · cases h
    · split at h
      · cases h
      · rename_i d2 _
        simp only [Except.ok.injEq] at h
        subst h
        exact Or.inr ⟨by simpa using hc, d2, rfl⟩

/-- Lines 110 to 126, when they return, have printed nothing: a source
package that is not found is reported, and the walk of the nil package faults. -/
theorem seedClosure_out (fuel : Nat) (c : Redis) (sourceRPMs : Repo) (r : RPM)
    (srpmName : String) (st st1 : RunState)
    (h : seedClosure fuel c sourceRPMs r srpmName st = .ok st1) : st1.out = st.out := by
  unfold seedClosure at h
  by_cases hc : st.depInfo.contains srpmName = true
  · rw [if_pos hc] at h
    rw [← Except.ok.inj h]
  · rw [if_neg hc] at h
    cases hg : GetRPM c sourceRPMs srpmName with
    | error err =>
      rw [hg] at h
      simp [callRecursiveRequires] at h
    | ok srpm =>
      rw [hg] at h
      simp only at h
      split at h
      · cases h
      · split at h
        · cases h
        · simp only [Except.ok.injEq] at h
          subst h
          rfl

/-- An iteration of the loop that returns: the package was found, lines 110 to
126 returned, the closure under the key of the package took the package in,
and the iteration printed the key, the requires and one MISSING line. -/
theorem resolveStep_spec (fuel : Nat) (c : Redis) (binaryRPMs sourceRPMs : Repo)
    (st st' : RunState) (pkg : String)
    (h : resolveStep fuel c binaryRPMs sourceRPMs st pkg = .ok st') :
    ∃ r st1 d0 d1, GetRPM c binaryRPMs pkg = .ok r ∧
      seedClosure fuel c sourceRPMs r (closureKey r)
        { st with out := st.out ++ [closureKey r] } = .ok st1 ∧
      st1.depInfo.get? (closureKey r) = some d0 ∧
      addBinary fuel c binaryRPMs d0 r st1.out = .ok d1 ∧
      st'.depInfo = st1.depInfo.set (closureKey r) d1 ∧
      st'.out = st.out ++ [closureKey r] ++ (missingLoop d1).2 ++
        [missingLine (closureKey r) (missingLoop d1).1] := by
  unfold resolveStep at h
  split at h
  · cases h
  · rename_i r hr
    simp only at h
    split at h
    · cases h
    · rename_i st1 hseed
      split at h
      · cases h
      · rename_i d0 hget
        split at h
        · cases h
        · rename_i d1 hadd
          simp only [Except.ok.injEq] at h
          subst h
          have hout := seedClosure_out fuel c sourceRPMs r _ _ st1 hseed
          exact ⟨r, st1, d0, d1, hr, hseed, hget, hadd, rfl, by simp only [hout]; rfl⟩

/-- C13: the key of the closure of a binary package `r`.  When `SRPMName` is
`n` followed by `-`, the version, `-`, the release and `.src.rpm`, the key is
`n`; when `SRPMName` does not end so, the key is `SRPMName`.  An iteration that
returns has the closure of its package under that key, with the package in it,
and leaves the other keys alone.  When a closure `d` was under the key before,
no key is added and the closure afterwards is `d` with the package added, its
source package and its earlier packages still there; only when no closure was
under the key is the key added.  With a closure under the key and fuel of the
store's size plus two or more, the iteration returns. -/
theorem closure_key_and_sharing :
    (∀ (r : RPM) (n : String),
      r.SRPMName = n ++ ("-" ++ r.Version ++ "-" ++ r.Release ++ ".src.rpm") →
      closureKey r = n) ∧
    (∀ r : RPM,
      (∀ n, r.SRPMName ≠ n ++ ("-" ++ r.Version ++ "-" ++ r.Release ++ ".src.rpm")) →
      closureKey r = r.SRPMName) ∧
    (∀ (fuel : Nat) (c : Redis) (binaryRPMs sourceRPMs : Repo) (st st' : RunState)
      (pkg : String), resolveStep fuel c binaryRPMs sourceRPMs st pkg = .ok st' →
      ∃ r d', GetRPM c binaryRPMs pkg = .ok r ∧
        st'.depInfo.get? (closureKey r) = some d' ∧ r.Name ∈ d'.RPMs.keys ∧
        (∀ k, k ≠ closureKey r → st'.depInfo.get? k = st.depInfo.get? k) ∧
        (∀ d, st.depInfo.get? (closureKey r) = some d →
          st'.depInfo.keys = st.depInfo.keys ∧
          addBinary fuel c binaryRPMs d r (st.out ++ [closureKey r]) = .ok d' ∧
          d'.SRPM = d.SRPM ∧ ∀ n ∈ d.RPMs.keys, n ∈ d'.RPMs.keys) ∧
        (st.depInfo.contains (closureKey r) = false →
          st'.depInfo.keys = st.depInfo.keys ++ [closureKey r])) ∧
    (∀ (c : Redis) (binaryRPMs sourceRPMs : Repo) (st : RunState) (pkg : String) (r : RPM)
      (d : RPMDepInfo) (extra : Nat), GetRPM c binaryRPMs pkg = .ok r →
      st.depInfo.get? (closureKey r) = some d →
      ∃ st', resolveStep (c.length + 2 + extra) c binaryRPMs sourceRPMs st pkg = .ok st') := by
  refine ⟨?_, ?_, ?_, ?_⟩
  · intro r n h
    unfold closureKey srpmSuffix
    rw [h]
    exact TrimSuffix_append n _
  · intro r h
    exact TrimSuffix_of_not_suffix _ _ h
  · intro fuel c binaryRPMs sourceRPMs st st' pkg h
    obtain ⟨r, st1, d0, d1, hr, hseed, hget, hadd, hdep, _⟩ :=
      resolveStep_spec fuel c binaryRPMs sourceRPMs st st' pkg h
    obtain ⟨hrpms, hsrpm⟩ := addBinary_keeps fuel c binaryRPMs d0 d1 r st1.out hadd
    have hout := seedClosure_out fuel c sourceRPMs r _ _ st1 hseed
    have hspec := seedClosure_spec fuel c sourceRPMs r _ _ st1 hseed
    refine ⟨r, d1, hr, ?_, ?_, ?_, ?_, ?_⟩
    · rw [hdep]
      exact GoMap.get?_set_self _ _ _
    · rw [hrpms]
      exact (GoMap.mem_keys_set _ _ _ _).mpr (Or.inl rfl)
    · intro k hk
      rw [hdep, GoMap.get?_set_other _ _ _ _ hk]
      rcases hspec with ⟨_, h1⟩ | ⟨_, d2, h2⟩
      · rw [h1]
      · rw [h2, GoMap.get?_set_other _ _ _ _ hk]
    · intro d hd
      have hmem : closureKey r ∈ st.depInfo.keys := GoMap.mem_keys_of_get? _ _ _ hd
      have hcont : st.depInfo.contains (closureKey r) = true :=
        (GoMap.contains_iff _ _).mpr hmem
      rcases hspec with ⟨_, h1⟩ | ⟨h2, _⟩
      · subst h1
        have hd0 : d0 = d := by
          have : some d0 = some d := hget.symm.trans hd
          exact Option.some.inj this
        subst hd0
        refine ⟨?_, hadd, hsrpm, ?_⟩
        · rw [hdep]
          exact GoMap.keys_set_of_mem _ _ _ hmem
        · intro n hn
          rw [hrpms]
          exact (GoMap.mem_keys_set _ _ _ _).mpr (Or.inr hn)
      · have h2' : st.depInfo.contains (closureKey r) = false := h2
        rw [hcont] at h2'
        cases h2'
    · intro hc
      have hnot : closureKey r ∉ st.depInfo.keys := fun hm => by
        rw [(GoMap.contains_iff _ _).mpr hm] at hc
        cases hc
      rcases hspec with ⟨h1, _⟩ | ⟨_, d2, h2⟩
      · have h1' : st.depInfo.contains (closureKey r) = true := h1
        rw [hc] at h1'
        cases h1'
      · have h2' : st1.depInfo = st.depInfo.set (closureKey r) d2 := h2
        rw [hdep, GoMap.keys_set_of_mem, h2', GoMap.keys_set_of_not_mem _ _ _ hnot]
        rw [h2']
        exact (GoMap.mem_keys_set _ _ _ _).mpr (Or.inl rfl)
  · intro c binaryRPMs sourceRPMs st pkg r d extra hr hd
    have hcont : st.depInfo.contains (closureKey r) = true :=
      (GoMap.contains_iff _ _).mpr (GoMap.mem_keys_of_get? _ _ _ hd)
    obtain ⟨d1, h1, _⟩ := callRecursiveRequires_ok c binaryRPMs (AddRPM d r) r
      (st.out ++ [closureKey r]) extra
    obtain ⟨d2, h2, _⟩ := callRecursiveProvides_ok c binaryRPMs d1 r
      (st.out ++ [closureKey r]) extra
    have hseed : seedClosure (c.length + 2 + extra) c sourceRPMs r (closureKey r)
        { st with out := st.out ++ [closureKey r] }
        = .ok { st with out := st.out ++ [closureKey r] } := by
      unfold seedClosure
      rw [if_pos hcont]
    have hadd : addBinary (c.length + 2 + extra) c binaryRPMs d r (st.out ++ [closureKey r])
        = .ok d2 := by
      simp only [addBinary, h1, h2]
    refine ⟨{ depInfo := st.depInfo.set (closureKey r) d2,
              out := st.out ++ [closureKey r] ++ (missingLoop d2).2 ++
                [missingLine (closureKey r) (missingLoop d2).1] }, ?_⟩
    unfold resolveStep
    rw [hr]
    simp only
    have hseed' := hseed
    unfold closureKey at hseed' hd hadd
    rw [hseed']
    simp only
    rw [hd]
    simp only
    rw [hadd]
    rfl

/-- C13 at concrete packages: `src-1.0-1.src.rpm` at version 1.0, release 1,
gives the key `src`; `src-B` with no such ending stays `src-B`; and in the
store where `A` and `B` are both built from `src`, the iteration for `A`
creates the closure under `src` and the iteration for `B`, which returns,
finds it there and adds `B` to it without adding a key. -/
theorem closure_key_and_sharing_witness :
    closureKey (builtFromSrc "A" ["libfoo"] ["liba"]) = "src" ∧
    closureKey { mkRPM "B" [] [] with SRPMName := "src-B" } = "src-B" ∧
    ∃ st st' d d',
      resolveStep 5 sharedStore binRepo srcRepo ⟨GoMap.empty, []⟩ "A" = .ok st ∧
      resolveStep 5 sharedStore binRepo srcRepo st "B" = .ok st' ∧
      st.depInfo.get? "src" = some d ∧ st'.depInfo.get? "src" = some d' ∧
      st'.depInfo.keys = st.depInfo.keys ∧ d'.SRPM = d.SRPM ∧
      (∀ n ∈ d.RPMs.keys, n ∈ d'.RPMs.keys) ∧ "B" ∈ d'.RPMs.keys := by
  have hA : GetRPM sharedStore binRepo "A" = .ok (builtFromSrc "A" ["libfoo"] ["liba"]) := rfl
  have hB : GetRPM sharedStore binRepo "B" = .ok (builtFromSrc "B" ["liba", "libbar"] ["libb"]) :=
    rfl
  have hkB : closureKey (builtFromSrc "B" ["liba", "libbar"] ["libb"]) = "src" :=
    closure_key_and_sharing.1 _ "src" rfl
  refine ⟨closure_key_and_sharing.1 _ "src" rfl, closure_key_and_sharing.2.1 _ ?_, ?_⟩
  · intro n hn
    have hn' : "src-B" = n ++ "--.src.rpm" := hn
    have hlen := congrArg String.length hn'
    rw [String.length_append] at hlen
    have h5 : "src-B".length = 5 := by decide
    have h10 : "--.src.rpm".length = 10 := by decide
    omega
  · cases h1 : resolveStep 5 sharedStore binRepo srcRepo ⟨GoMap.empty, []⟩ "A" with
    | error f =>
      have hok : (resolveStep 5 sharedStore binRepo srcRepo ⟨GoMap.empty, []⟩ "A").toBool
          = true := by decide
      rw [h1] at hok
      cases hok
    | ok st =>
      obtain ⟨rA, d, hrA, hgetA, _, _, _, _⟩ := closure_key_and_sharing.2.2.1 _ _ _ _ _ _ _ h1
      rw [hA] at hrA
      cases hrA
      have hkA : closureKey (builtFromSrc "A" ["libfoo"] ["liba"]) = "src" :=
        closure_key_and_sharing.1 _ "src" rfl
      rw [hkA] at hgetA
      obtain ⟨st', h2⟩ := closure_key_and_sharing.2.2.2 sharedStore binRepo srcRepo st "B" _ d 0
        hB (by rw [hkB]; exact hgetA)
      obtain ⟨rB, d', hrB, hgetB, hin, _, hexisting, _⟩ :=
        closure_key_and_sharing.2.2.1 _ _ _ _ _ _ _ h2
      rw [hB] at hrB
      cases hrB
      rw [hkB] at hgetB hexisting
      obtain ⟨hkeys, _, hsrpm, hrpms⟩ := hexisting d hgetA
      exact ⟨st, st', d, d', rfl, h2, hgetA, hgetB, hkeys, hsrpm, hrpms, hin⟩

/-! ## The MISSING reports of a run -/

theorem isMissingReport_missingLine (srpmName : String) (missing : List String) :
    isMissingReport (missingLine srpmName missing) = true := by
  unfold isMissingReport missingLine
  rw [List.isPrefixOf_iff_prefix]
  simp only [String.data_append, List.append_assoc]
  exact List.prefix_append _ _

theorem isMissingReport_req (req : String) : isMissingReport ("Req:  " ++ req) = false := by
  unfold isMissingReport
  rw [String.data_append]
  rfl

theorem missingLoop_snd (d : RPMDepInfo) :
    (missingLoop d).2 = d.Requires.keys.map (fun req => "Req:  " ++ req) := by
  unfold missingLoop
  rw [missingLoop_foldl (fun req => d.Provides.contains req)]
  simp

theorem missingReports_append (a b : List String) :
    missingReports (a ++ b) = missingReports a + missingReports b := by
  simp [missingReports, List.filter_append]

theorem missingReports_missingLoop (d : RPMDepInfo) : missingReports (missingLoop d).2 = 0 := by
  rw [missingLoop_snd]
  unfold missingReports
  rw [List.length_eq_zero, List.filter_eq_nil_iff]
  intro x hx
  obtain ⟨req, _, rfl⟩ := List.mem_map.mp hx
  simp [isMissingReport_req]

/-- What an iteration that returns does to the keys of `depInfo` and to the
number of MISSING reports: the key of its package is there afterwards, no key
is lost, at most that key is new, and one MISSING line is printed (the line
with the key itself counts too when the key begins like a report). -/
theorem resolveStep_reports (fuel : Nat) (c : Redis) (binaryRPMs sourceRPMs : Repo)
    (st st' : RunState) (pkg : String)
    (h : resolveStep fuel c binaryRPMs sourceRPMs st pkg = .ok st') :
    ∃ r, GetRPM c binaryRPMs pkg = .ok r ∧ closureKey r ∈ st'.depInfo.keys ∧
      (∀ k ∈ st.depInfo.keys, k ∈ st'.depInfo.keys) ∧
      (∀ k ∈ st'.depInfo.keys, k ∈ st.depInfo.keys ∨ k = closureKey r) ∧
      st'.depInfo.keys.length ≤ st.depInfo.keys.length + 1 ∧
      missingReports st'.out
        = missingReports st.out + (if isMissingReport (closureKey r) then 1 else 0) + 1 := by
  obtain ⟨r, st1, d0, d1, hr, hseed, _, _, hdep, hout⟩ :=
    resolveStep_spec fuel c binaryRPMs sourceRPMs st st' pkg h
  have hspec := seedClosure_spec fuel c sourceRPMs r _ _ st1 hseed
  have hcount : missingReports st'.out
      = missingReports st.out + (if isMissingReport (closureKey r) then 1 else 0) + 1 := by
    rw [hout, missingReports_append, missingReports_append, missingReports_append,
      missingReports_missingLoop]
    have h1 : missingReports [missingLine (closureKey r) (missingLoop d1).1] = 1 := by
      simp [missingReports, isMissingReport_missingLine]
    have h2 : missingReports [closureKey r] = if isMissingReport (closureKey r) then 1 else 0 := by
      unfold missingReports
      by_cases hk : isMissingReport (closureKey r) = true <;> simp [hk]
    rw [h1, h2]
  refine ⟨r, hr, ?_, ?_, ?_, ?_, hcount⟩
  · rw [hdep]
    exact (GoMap.mem_keys_set _ _ _ _).mpr (Or.inl rfl)
  · intro k hk
    rw [hdep]
    refine (GoMap.mem_keys_set _ _ _ _).mpr (Or.inr ?_)
    rcases hspec with ⟨_, h1⟩ | ⟨_, d2, h2⟩
    · rw [h1]
      exact hk
    · rw [h2]
      exact (GoMap.mem_keys_set _ _ _ _).mpr (Or.inr hk)
  · intro k hk
    rw [hdep] at hk
    rcases (GoMap.mem_keys_set _ _ _ _).mp hk with hk | hk
    · exact Or.inr hk
    · rcases hspec with ⟨_, h1⟩ | ⟨_, d2, h2⟩
      · rw [h1] at hk
        exact Or.inl hk
      · rw [h2] at hk
        rcases (GoMap.mem_keys_set _ _ _ _).mp hk with hk | hk
        · exact Or.inr hk
        · exact Or.inl hk
  · rcases hspec with ⟨hc, h1⟩ | ⟨hc, d2, h2⟩
    · have hmem : closureKey r ∈ st.depInfo.keys := (GoMap.contains_iff _ _).mp hc
      rw [hdep, h1, GoMap.keys_set_of_mem _ _ _ hmem]
      exact Nat.le_succ _
    · have hnot : closureKey r ∉ st.depInfo.keys := fun hm => by
        have hc' : st.depInfo.contains (closureKey r) = false := hc
        rw [(GoMap.contains_iff _ _).mpr hm] at hc'
        cases hc'
      have h2' : st1.depInfo = st.depInfo.set (closureKey r) d2 := h2
      have hmem1 : closureKey r ∈ st1.depInfo.keys := by
        rw [h2']
        exact (GoMap.mem_keys_set _ _ _ _).mpr (Or.inl rfl)
      rw [hdep, GoMap.keys_set_of_mem _ _ _ hmem1, h2', GoMap.keys_set_of_not_mem _ _ _ hnot]
      simp

/-- The loop over a list of bundle packages, when it returns. -/
theorem run_reports (fuel : Nat) (c : Redis) (binaryRPMs sourceRPMs : Repo)
    (l : List String) :
    ∀ st st' : RunState, l.foldlM (resolveStep fuel c binaryRPMs sourceRPMs) st = .ok st' →
      (∀ k ∈ st.depInfo.keys, k ∈ st'.depInfo.keys) ∧
      (∀ pkg ∈ l, ∃ r, GetRPM c binaryRPMs pkg = .ok r ∧ closureKey r ∈ st'.depInfo.keys) ∧
      (∀ k ∈ st'.depInfo.keys, k ∈ st.depInfo.keys ∨
        ∃ pkg ∈ l, ∃ r, GetRPM c binaryRPMs pkg = .ok r ∧ k = closureKey r) ∧
      st'.depInfo.keys.length ≤ st.depInfo.keys.length + l.length ∧
      ((∀ k ∈ st'.depInfo.keys, isMissingReport k = false) →
        missingReports st'.out = missingReports st.out + l.length) := by
  induction l with
  | nil =>
    intro st st' h
    simp only [List.foldlM_nil, pure, Except.pure, Except.ok.injEq] at h
    subst h
    exact ⟨fun _ hk => hk, by simp, fun k hk => Or.inl hk, by simp, fun _ => by simp⟩
  | cons pkg rest ih =>
    intro st st' h
    simp only [List.foldlM_cons, bind, Except.bind] at h
    cases hstep : resolveStep fuel c binaryRPMs sourceRPMs st pkg with
    | error f => rw [hstep] at h; cases h
    | ok s1 =>
      rw [hstep] at h
      obtain ⟨r, hr, hkey, hmono, hnew, hlen, hcount⟩ :=
        resolveStep_reports fuel c binaryRPMs sourceRPMs st s1 pkg hstep
      obtain ⟨iA, iB, iC, iD, iE⟩ := ih s1 st' h
      refine ⟨fun k hk => iA k (hmono k hk), ?_, ?_, ?_, ?_⟩
      · intro p hp
        rcases List.mem_cons.mp hp with rfl | hp
        · exact ⟨r, hr, iA _ hkey⟩
        · exact iB p hp
      · intro k hk
        rcases iC k hk with h1 | ⟨p, hp, r', hr', hk'⟩
        · rcases hnew k h1 with h2 | h2
          · exact Or.inl h2
          · exact Or.inr ⟨pkg, List.mem_cons_self _ _, r, hr, h2⟩
        · exact Or.inr ⟨p, List.mem_cons_of_mem _ hp, r', hr', hk'⟩
      · simp only [List.length_cons]
        omega
      · intro hno
        have hk0 : isMissingReport (closureKey r) = false := hno _ (iA _ hkey)
        rw [iE hno, hcount, hk0]
        simp only [List.length_cons, Bool.false_eq_true, if_false]
        omega

/-- C12 as the spec has it fails: `A` and `B` are both built from `src`; the
run over the two returns with one closure, under the one source-package name
`src`, and with two MISSING reports in its output. -/
theorem once_per_source_package_counterexample :
    closureKeys (runCheckDependencies 5 sharedStore binRepo srcRepo bundleAB) = ["src"] ∧
    outputOf (runCheckDependencies 5 sharedStore binRepo srcRepo bundleAB)
      = ["src", "Req:  libfoo", "MISSING: src: libfoo",
         "src", "Req:  libfoo", "Req:  liba", "Req:  libbar",
         "MISSING: src: libfoo || libbar"] ∧
    missingReports (outputOf (runCheckDependencies 5 sharedStore binRepo srcRepo bundleAB)) = 2 ∧
    missingReports (outputOf (runCheckDependencies 5 sharedStore binRepo srcRepo bundleAB))
      ≠ (closureKeys (runCheckDependencies 5 sharedStore binRepo srcRepo bundleAB)).length := by
  refine ⟨by decide, by decide, by decide, by decide⟩

/-- C12, amended: a run that returns has printed the MISSING report once for
each bundle package, not once for each source package.  Every bundle package
was found and has its source-package name among the keys of `depInfo`, every
key is the source-package name of a bundle package, so that the keys are the
different source-package names met; there are at most as many of them as
bundle packages; and when no such name itself begins like a MISSING report,
the number of MISSING reports in the output is the number of bundle
packages. -/
theorem missing_reported_once_per_bundle_package (fuel : Nat) (c : Redis)
    (binaryRPMs sourceRPMs : Repo) (bundlePkgs : GoMap Bool) (st : RunState)
    (h : runCheckDependencies fuel c binaryRPMs sourceRPMs bundlePkgs = .ok st) :
    (∀ pkg ∈ bundlePkgs.keys,
      ∃ r, GetRPM c binaryRPMs pkg = .ok r ∧ closureKey r ∈ st.depInfo.keys) ∧
    (∀ k ∈ st.depInfo.keys,
      ∃ pkg ∈ bundlePkgs.keys, ∃ r, GetRPM c binaryRPMs pkg = .ok r ∧ k = closureKey r) ∧
    st.depInfo.keys.length ≤ bundlePkgs.keys.length ∧
    ((∀ k ∈ st.depInfo.keys, isMissingReport k = false) →
      missingReports st.out = bundlePkgs.keys.length) := by
  obtain ⟨_, hB, hC, hD, hE⟩ := run_reports fuel c binaryRPMs sourceRPMs bundlePkgs.keys
    { depInfo := GoMap.empty, out := [] } st h
  refine ⟨hB, ?_, ?_, ?_⟩
  · intro k hk
    rcases hC k hk with h0 | h1
    · simp [GoMap.keys_empty] at h0
    · exact h1
  · simpa [GoMap.keys_empty] using hD
  · intro hno
    have := hE hno
    simpa [missingReports] using this

/-- The amended C12 at the store where `A` and `B` are both built from `src`:
the run returns, `src` does not begin like a MISSING report, and there are two
MISSING reports for the two bundle packages. -/
theorem missing_reported_once_per_bundle_package_witness :
    ∃ st, runCheckDependencies 5 sharedStore binRepo srcRepo bundleAB = .ok st ∧
      (∀ k ∈ st.depInfo.keys, isMissingReport k = false) ∧
      missingReports st.out = bundleAB.keys.length ∧ bundleAB.keys.length = 2 ∧
      st.depInfo.keys.length ≤ bundleAB.keys.length := by
  cases h : runCheckDependencies 5 sharedStore binRepo srcRepo bundleAB with
  | error f =>
    have hok : (runCheckDependencies 5 sharedStore binRepo srcRepo bundleAB).toBool = true := by
      decide
    rw [h] at hok
    cases hok
  | ok st =>
    have hkeys : closureKeys (runCheckDependencies 5 sharedStore binRepo srcRepo bundleAB)
        = ["src"] := by decide
    rw [h] at hkeys
    have hkeys' : st.depInfo.keys = ["src"] := hkeys
    have hno : ∀ k ∈ st.depInfo.keys, isMissingReport k = false := by
      intro k hk
      rw [hkeys', List.mem_singleton] at hk
      subst hk
      decide
    obtain ⟨_, _, hlen, hcount⟩ :=
      missing_reported_once_per_bundle_package 5 sharedStore binRepo srcRepo bundleAB st h
    exact ⟨st, rfl, hno, hcount hno, by decide, hlen⟩

end Diva
